import Mathlib

/-!
The Satis registry and manifest writer of perseus (`config/satis.go`).

A shallow embedding of `NewSatis`, `AddRepository`, `AddRepositories`,
`GetRepositoriesAsSlice` and `WriteFile`, and theorems about them.

How Go is read here:

* a Go `string` is a Lean `String` (a text; byte strings that are not UTF-8 are
  outside the model);
* a Go `map[string]V` is a finite map `GoMap V` without any order; a `range`
  over a map visits its entries in an order Go leaves open, which the model
  takes as an explicit `RangeOrder` argument, one per loop;
* a Go `interface{}` value is a `GoValue`; a failed type assertion is a panic,
  which the model returns as `Except.error` of `Run`;
* `encoding/json` is read at the level of JSON values: a byte slice is either
  the text of one JSON value or it is not JSON (`Bytes`);
* the file system is an explicit state, and `ioutil.WriteFile` is an argument.
-/

namespace Perseus

/-! ## JSON values and byte slices -/

/-- A JSON value as `encoding/json` reads it. Object members keep the order
and the duplicates of the text. -/
inductive Json where
  | null
  | bool (b : Bool)
  | number (lit : String)
  | string (s : String)
  | array (elems : List Json)
  | object (members : List (String × Json))

mutual
/-- Structural equality test on JSON values. -/
def Json.beq : Json → Json → Bool
  | .null, .null => true
  | .bool a, .bool b => a == b
  | .number a, .number b => a == b
  | .string a, .string b => a == b
  | .array a, .array b => Json.beqList a b
  | .object a, .object b => Json.beqMembers a b
  | _, _ => false
/-- Structural equality test on lists of JSON values. -/
def Json.beqList : List Json → List Json → Bool
  | [], [] => true
  | a :: as, b :: bs => Json.beq a b && Json.beqList as bs
  | _, _ => false
/-- Structural equality test on lists of object members. -/
def Json.beqMembers : List (String × Json) → List (String × Json) → Bool
  | [], [] => true
  | (k, a) :: as, (l, b) :: bs => k == l && Json.beq a b && Json.beqMembers as bs
  | _, _ => false
end

mutual
theorem Json.beq_iff : ∀ a b : Json, Json.beq a b = true ↔ a = b
  | .null, b => by cases b <;> simp [Json.beq]
  | .bool x, b => by cases b <;> simp [Json.beq]
  | .number x, b => by cases b <;> simp [Json.beq]
  | .string x, b => by cases b <;> simp [Json.beq]
  | .array x, b => by
      cases b <;> simp [Json.beq]
      exact Json.beqList_iff x _
  | .object x, b => by
      cases b <;> simp [Json.beq]
      exact Json.beqMembers_iff x _
theorem Json.beqList_iff : ∀ a b : List Json, Json.beqList a b = true ↔ a = b
  | [], b => by cases b <;> simp [Json.beqList]
  | x :: xs, b => by
      cases b with
      | nil => simp [Json.beqList]
      | cons y ys => simp [Json.beqList, Json.beq_iff x y, Json.beqList_iff xs ys]
theorem Json.beqMembers_iff :
    ∀ a b : List (String × Json), Json.beqMembers a b = true ↔ a = b
  | [], b => by cases b <;> simp [Json.beqMembers]
  | (k, x) :: xs, b => by
      cases b with
      | nil => simp [Json.beqMembers]
      | cons y ys =>
        obtain ⟨l, y⟩ := y
        simp [Json.beqMembers, Json.beq_iff x y, Json.beqMembers_iff xs ys, and_assoc]
end

instance : DecidableEq Json := fun a b =>
  if h : Json.beq a b = true then isTrue ((Json.beq_iff a b).1 h)
  else isFalse (fun e => h ((Json.beq_iff a b).2 e))

/-- The name `encoding/json` gives the kind of a JSON value in its errors. -/
def Json.kind : Json → String
  | .null => "null"
  | .bool _ => "bool"
  | .number _ => "number"
  | .string _ => "string"
  | .array _ => "array"
  | .object _ => "object"

/-- A Go byte slice (`[]byte`, `json.RawMessage`), kept as far as
`encoding/json` can tell byte slices apart:

* `nil` is the nil slice;
* `text layout value` is a JSON text of `value`; `layout` numbers the
  spellings of that value (white space, escapes), and `0` is the spelling
  `json.MarshalIndent(_, "", "    ")` prints;
* `malformed id` is a non-nil slice that is not a JSON text (the empty slice
  is one of them); `id` tells such slices apart. -/
inductive Bytes where
  | nil
  | text (layout : Nat) (value : Json)
  | malformed (id : Nat)
deriving DecidableEq

/-- Go errors the code can return. -/
inductive GoError where
  /-- An error made by `errors.New`. -/
  | errorString (s : String)
  /-- A `*json.SyntaxError`: the bytes are not a JSON text. -/
  | syntaxError
  /-- A `*json.UnmarshalTypeError`: JSON kind `value` does not go into Go type `goType`. -/
  | unmarshalTypeError (value : String) (goType : String)
  /-- A `*json.MarshalerError`: a `MarshalJSON` result is not a JSON text. -/
  | marshalerError (goType : String)
  /-- An error of the operating system (`*os.PathError`). -/
  | pathError (op : String) (path : String)
deriving DecidableEq

/-- A run-time panic. The only one the code can raise by itself is a failed
type assertion `x.(T)`. -/
inductive Panic where
  | interfaceConversion (wanted : String)
deriving DecidableEq

/-- A computation that ends normally or panics. -/
abbrev Run (α : Type) := Except Panic α

deriving instance DecidableEq for Except

/-! ## Go maps -/

/-- A Go `map[string]V`: finitely many keys, one value per key, no order. -/
abbrev GoMap (V : Type) := Finmap (fun _ : String => V)

/-- The order of Go strings (byte-wise, which for texts is the order of the
code points). -/
def keyLE (a b : String) : Prop := a.data ≤ b.data

instance : DecidableRel keyLE := fun a b => inferInstanceAs (Decidable (a.data ≤ b.data))

instance : IsTotal String keyLE := ⟨fun a b => le_total a.data b.data⟩

instance : IsTrans String keyLE := ⟨fun _ _ _ h₁ h₂ => le_trans (α := List Char) h₁ h₂⟩

instance : IsAntisymm String keyLE :=
  ⟨fun _ _ h₁ h₂ => String.ext (le_antisymm (α := List Char) h₁ h₂)⟩

theorem insertionSort_keyLE_congr {l₁ l₂ : List String} (h : l₁.Perm l₂) :
    l₁.insertionSort keyLE = l₂.insertionSort keyLE :=
  List.eq_of_perm_of_sorted
    (((List.perm_insertionSort keyLE l₁).trans h).trans (List.perm_insertionSort keyLE l₂).symm)
    (List.sorted_insertionSort keyLE l₁) (List.sorted_insertionSort keyLE l₂)

/-- The keys of a map in ascending order, as `encoding/json` lists them when it
encodes a map. -/
def GoMap.sortedKeys {V : Type} (m : GoMap V) : List String :=
  Quot.liftOn m.keys.val (fun l => l.insertionSort keyLE)
    (fun _ _ h => insertionSort_keyLE_congr h)

/-- The entries of a map, keys ascending. -/
def GoMap.sortedEntries {V : Type} (m : GoMap V) : List (String × V) :=
  m.sortedKeys.filterMap (fun k => (m.lookup k).map (fun v => (k, v)))

/-- The order in which one `range` loop visits the entries of a map. Go leaves
it open; whatever it is, every entry is visited once. -/
structure RangeOrder where
  order : {V : Type} → GoMap V → List (String × V)
  nodup : ∀ {V : Type} (m : GoMap V), ((order m).map Prod.fst).Nodup
  mem_iff : ∀ {V : Type} (m : GoMap V) (k : String) (v : V),
    (k, v) ∈ order m ↔ m.lookup k = some v

/-! ## Interface values and the provider -/

/-- A Go `interface{}` value, by its dynamic type. -/
inductive GoValue where
  /-- The nil interface value. -/
  | nil
  /-- A `*json.RawMessage`; `none` is the nil pointer. -/
  | rawMessagePtr (p : Option Bytes)
  /-- A `json.RawMessage`. -/
  | rawMessage (b : Bytes)
  /-- A value of any other dynamic type. -/
  | other (goType : String)
deriving DecidableEq

/-- The type assertion `x.(*json.RawMessage)`. -/
def GoValue.assertRawMessagePtr : GoValue → Run (Option Bytes)
  | .rawMessagePtr p => .ok p
  | _ => .error (.interfaceConversion "*json.RawMessage")

/-- The type assertion `x.(json.RawMessage)`. -/
def GoValue.assertRawMessage : GoValue → Run Bytes
  | .rawMessage b => .ok b
  | _ => .error (.interfaceConversion "json.RawMessage")

/-- Modelled from the spec: the `Provider` interface, whose declaration is not
among the sources. Of its methods the code calls `Get("repositories")` and
`GetContentMap()`; both only read a snapshot of the loaded document. The
absent or nil result of `Get` for a key that does not exist is, in Go, the nil
interface value (`GoValue.nil`) or a nil `*json.RawMessage`
(`GoValue.rawMessagePtr none`); a provider returns either. -/
structure Provider where
  Get : String → GoValue
  GetContentMap : GoMap GoValue

/-! ## The data model of `satis.go` -/

/-- One entry of the `repositories` section. -/
structure SatisRepository where
  «Type» : String
  URL : String
deriving DecidableEq

/-- A Satis configuration object. -/
structure Satis where
  config : Provider
  repositories : GoMap SatisRepository

/-! ## `encoding/json` on the types of `satis.go` -/

/-- Whether an object key names the struct field with JSON name `name` (all
lower case): `encoding/json` matches field names without regard to case. -/
def matchesField (key name : String) : Bool :=
  key.data.map Char.toLower == name.data

/-- Decoding one JSON value into a Go `string` field: a string is stored, `null`
leaves the field as it is, anything else is a type error. -/
def decodeStringField (old : String) : Json → Except GoError String
  | .string s => .ok s
  | .null => .ok old
  | v => .error (.unmarshalTypeError v.kind "string")

/-- Decoding one object member into a `SatisRepository`; members that name no
field are skipped. -/
def SatisRepository.decodeMember (r : SatisRepository) (kv : String × Json) :
    Except GoError SatisRepository :=
  if matchesField kv.1 "type" then
    (decodeStringField r.«Type» kv.2).map (fun t => { r with «Type» := t })
  else if matchesField kv.1 "url" then
    (decodeStringField r.URL kv.2).map (fun u => { r with URL := u })
  else
    .ok r

/-- Decoding one JSON value into a zero `SatisRepository`. -/
def SatisRepository.decode : Json → Except GoError SatisRepository
  | .object members => members.foldlM SatisRepository.decodeMember ⟨"", ""⟩
  | .null => .ok ⟨"", ""⟩
  | v => .error (.unmarshalTypeError v.kind "config.SatisRepository")

/-- Decoding one JSON value into a `[]SatisRepository`. -/
def decodeRepositories : Json → Except GoError (List SatisRepository)
  | .array elems => elems.mapM SatisRepository.decode
  | .null => .ok []
  | v => .error (.unmarshalTypeError v.kind "[]config.SatisRepository")

/-- The call `json.Unmarshal(data, &repositories)` with `repositories` an empty
slice. -/
def json.Unmarshal (data : Bytes) : Except GoError (List SatisRepository) :=
  match data with
  | .text _ v => decodeRepositories v
  | _ => .error .syntaxError

/-- The JSON value of one repository entry. -/
def SatisRepository.toJson (r : SatisRepository) : Json :=
  .object [("type", .string r.«Type»), ("url", .string r.URL)]

/-- The call `json.MarshalIndent(&repositories, "", "    ")` on a non-nil slice
of entries. -/
def json.MarshalIndentRepositories (repositories : List SatisRepository) :
    Except GoError Bytes :=
  .ok (.text 0 (.array (repositories.map SatisRepository.toJson)))

/-- What `MarshalJSON` of a `json.RawMessage` contributes to an encoding: a nil
slice is `null`, a JSON text is its value, other bytes are an error. -/
def marshalRawMessage : Bytes → Except GoError Json
  | .nil => .ok .null
  | .text _ v => .ok v
  | .malformed _ => .error (.marshalerError "json.RawMessage")

/-- The call `json.MarshalIndent(&m, "", "    ")` on a
`map[string]*json.RawMessage` without nil pointers: an object with the keys in
ascending order. -/
def json.MarshalIndentDocument (m : GoMap Bytes) : Except GoError Bytes :=
  (m.sortedEntries.mapM (fun kv => (marshalRawMessage kv.2).map (fun v => (kv.1, v)))).map
    (fun members => Bytes.text 0 (.object members))

/-! ## The functions of `satis.go` -/

/-- Lines 50 to 57 of `NewSatis`: the initial repositories. -/
def NewSatis.readRepositories (c : Provider) : Run (Except GoError (List SatisRepository)) :=
  match (c.Get "repositories").assertRawMessagePtr with
  | .error p => .error p
  | .ok none => .ok (.ok [])
  | .ok (some v) => .ok (json.Unmarshal v)

/-- Lines 59 to 63 of `NewSatis`: the map keyed by URL. -/
def NewSatis.deduplicate (repositories : List SatisRepository) : GoMap SatisRepository :=
  repositories.foldl (fun m v => m.insert v.URL v) ∅

/-- `NewSatis(c)`: the pair of results `(*Satis, error)`, or a panic. -/
def NewSatis (c : Option Provider) : Run (Option Satis × Option GoError) :=
  match c with
  | none => .ok (none, some (.errorString "No configurations provider applied"))
  | some c =>
    match NewSatis.readRepositories c with
    | .error p => .error p
    | .ok (.error err) => .ok (none, some err)
    | .ok (.ok repositories) =>
      .ok (some { config := c, repositories := NewSatis.deduplicate repositories }, none)

/-- `s.AddRepository(u)`. -/
def Satis.AddRepository (s : Satis) (u : String) : Satis :=
  let r : SatisRepository := { «Type» := "git", URL := u }
  { s with repositories := s.repositories.insert r.URL r }

/-- `s.AddRepositories(u...)`. -/
def Satis.AddRepositories (s : Satis) (u : List String) : Satis :=
  u.foldl Satis.AddRepository s

/-- `s.GetRepositoriesAsSlice()`, the loop visiting the map in order `ρ`. -/
def Satis.GetRepositoriesAsSlice (ρ : RangeOrder) (s : Satis) : List SatisRepository :=
  (ρ.order s.repositories).foldl (fun c kv => c ++ [kv.2]) []

/-- Lines 97 to 102 of `WriteFile`: the content map with every value asserted
to be a `json.RawMessage`. -/
def Satis.WriteFile.contentPointers (ρ : RangeOrder) (contentMap : GoMap GoValue) :
    Run (GoMap Bytes) :=
  (ρ.order contentMap).foldlM
    (fun m kv => (kv.2.assertRawMessage).map (fun t => m.insert kv.1 t)) ∅

/-- Lines 97 to 111 of `WriteFile`: the map `m` that is handed to the second
`json.MarshalIndent`, or the error of the first one. -/
def Satis.WriteFile.document (ρ₁ ρ₂ : RangeOrder) (s : Satis) :
    Run (Except GoError (GoMap Bytes)) :=
  match Satis.WriteFile.contentPointers ρ₁ s.config.GetContentMap with
  | .error p => .error p
  | .ok m =>
    match json.MarshalIndentRepositories (s.GetRepositoriesAsSlice ρ₂) with
    | .error err => .ok (.error err)
    | .ok rawRepositories => .ok (.ok (m.insert "repositories" rawRepositories))

/-- A file: its bytes and its permission bits. -/
structure File where
  content : Bytes
  perm : Nat
deriving DecidableEq

/-- The files by name. -/
abbrev FileSystem := String → Option File

/-- The effect of `ioutil.WriteFile(filename, data, perm)` on the file system
and the error it returns. It is the operating system's and is left open. -/
abbrev WriteFileOp := String → Bytes → Nat → FileSystem → Option GoError × FileSystem

/-- Lines 97 to 116 of `WriteFile`: the bytes `b` to write, or the error of one
of the two encodings. -/
def Satis.WriteFile.encode (ρ₁ ρ₂ : RangeOrder) (s : Satis) : Run (Except GoError Bytes) :=
  match Satis.WriteFile.document ρ₁ ρ₂ s with
  | .error p => .error p
  | .ok (.error err) => .ok (.error err)
  | .ok (.ok m) => .ok (json.MarshalIndentDocument m)

/-- `s.WriteFile(filename, perm)` on file system `fs`: the returned error (or
the panic) and the file system afterwards. -/
def Satis.WriteFile (write : WriteFileOp) (ρ₁ ρ₂ : RangeOrder) (s : Satis)
    (filename : String) (perm : Nat) (fs : FileSystem) :
    Run (Option GoError) × FileSystem :=
  match Satis.WriteFile.encode ρ₁ ρ₂ s with
  | .error p => (.error p, fs)
  | .ok (.error err) => (.ok (some err), fs)
  | .ok (.ok b) => (.ok (write filename b perm fs).1, (write filename b perm fs).2)

/-! ## Notions the claims are stated with -/

/-- Whether an interface value holds a `json.RawMessage`. -/
def GoValue.isRawMessage : GoValue → Bool
  | .rawMessage _ => true
  | _ => false

/-- A registry in the sense of the data model, a mapping from URL to entry:
the entry stored under a key has that key as its URL. -/
def Satis.Coherent (s : Satis) : Prop :=
  ∀ k r, s.repositories.lookup k = some r → r.URL = k

/-- The last element of `L` whose URL is `u`, if there is one. -/
def lastWithURL (L : List SatisRepository) (u : String) : Option SatisRepository :=
  (L.filter (fun r => decide (r.URL = u))).getLast?

/-- A provider over a loaded document that is given by the raw values of its
keys: `Get` returns a pointer to the raw value of a key (the nil pointer for a
key the document does not have), `GetContentMap` the raw values. -/
def Provider.ofDocument (content : List (String × Bytes)) : Provider where
  Get := fun key => GoValue.rawMessagePtr (content.lookup key)
  GetContentMap :=
    (content.map (fun p => (⟨p.1, GoValue.rawMessage p.2⟩ : Σ _ : String, GoValue))).toFinmap

/-- Whether an error was made by `errors.New`. -/
def GoError.isErrorString : GoError → Bool
  | .errorString _ => true
  | _ => false

/-- An interface value that `WriteFile` can encode: a `json.RawMessage` that is
nil or a JSON text. -/
def GoValue.encodes : GoValue → Bool
  | .rawMessage (.malformed _) => false
  | .rawMessage _ => true
  | _ => false

/-- Whether a byte slice is not nil and not a JSON text. -/
def Bytes.isMalformed : Bytes → Bool
  | .malformed _ => true
  | _ => false

/-- The JSON value a raw message is encoded as. -/
def Bytes.jsonValue : Bytes → Json
  | .text _ v => v
  | _ => .null

/-- The value a JSON document holds under `key`, as decoding the document into
a map gives it: of several members with that key the last one counts. -/
def Bytes.member (doc : Bytes) (key : String) : Option Json :=
  match doc with
  | .text _ (.object members) =>
    ((members.filter (fun p => decide (p.1 = key))).getLast?).map Prod.snd
  | _ => none

/-- A write that succeeds: the file holds the data afterwards; the permission
bits are those of the file that was there, and `perm` for a new file. -/
def successfulWrite : WriteFileOp := fun filename data perm fs =>
  (none, fun name =>
    if name = filename then
      some { content := data, perm := match fs filename with
                                      | some old => old.perm
                                      | none => perm }
    else fs name)

/-- The repositories after the single calls `AddRepository(u₁)`; ...;
`AddRepository(uₙ)`, made one after the other in this order. -/
def Satis.singleCalls : Satis → List String → Satis
  | s, [] => s
  | s, u :: us => Satis.singleCalls (s.AddRepository u) us

/-- A call of one of the methods of a Satis object. -/
inductive Satis.Call where
  | AddRepository (u : String)
  | AddRepositories (u : List String)
  | GetRepositoriesAsSlice (ρ : RangeOrder)
  | WriteFile (write : WriteFileOp) (ρ₁ ρ₂ : RangeOrder) (filename : String) (perm : Nat)

/-- The Satis object and the file system after a call: the assignments the
method makes to the fields of its receiver, and the file it writes. -/
def Satis.Call.after : Satis.Call → Satis × FileSystem → Satis × FileSystem
  | .AddRepository u, (s, fs) => (s.AddRepository u, fs)
  | .AddRepositories u, (s, fs) => (s.AddRepositories u, fs)
  | .GetRepositoriesAsSlice _, (s, fs) => (s, fs)
  | .WriteFile write ρ₁ ρ₂ filename perm, (s, fs) =>
    (s, (s.WriteFile write ρ₁ ρ₂ filename perm fs).2)

/-- Whether a call is one of the two that add repositories. -/
def Satis.Call.isAdd : Satis.Call → Bool
  | .AddRepository _ => true
  | .AddRepositories _ => true
  | _ => false

/-- The Satis objects a program can reach: those `NewSatis` returns without an
error, and those it gets from them by `AddRepository` and `AddRepositories`. -/
inductive Satis.Reachable : Satis → Prop where
  | newSatis (c : Option Provider) (s : Satis) :
      NewSatis c = Except.ok (some s, none) → Satis.Reachable s
  | addRepository (s : Satis) (u : String) :
      Satis.Reachable s → Satis.Reachable (s.AddRepository u)
  | addRepositories (s : Satis) (u : List String) :
      Satis.Reachable s → Satis.Reachable (s.AddRepositories u)

/-! ## Sample inputs -/

/-- A manifest with a name and three repositories, two of them with the same
URL. -/
def sampleDocument : List (String × Bytes) :=
  [("name", Bytes.text 1 (Json.string "acme/mirror")),
   ("repositories", Bytes.text 2 (Json.array
      [Json.object [("type", Json.string "svn"), ("url", Json.string "u1")],
       Json.object [("type", Json.string "git"), ("url", Json.string "u2")],
       Json.object [("type", Json.string "hg"), ("url", Json.string "u1")]]))]

/-- The entries the sample manifest lists. -/
def sampleRepositories : List SatisRepository :=
  [⟨"svn", "u1"⟩, ⟨"git", "u2"⟩, ⟨"hg", "u1"⟩]

/-- The Satis object `NewSatis` builds from the sample manifest. -/
def sampleSatis : Satis :=
  { config := Provider.ofDocument sampleDocument
    repositories := NewSatis.deduplicate sampleRepositories }

/-- A manifest without repositories. -/
def bareDocument : List (String × Bytes) :=
  [("name", Bytes.text 1 (Json.string "acme/mirror"))]

/-- A manifest whose `"repositories"` value is a string. -/
def stringDocument : List (String × Bytes) :=
  [("repositories", Bytes.text 0 (Json.string "none"))]

/-- A manifest whose `"repositories"` value is `null`. -/
def nullDocument : List (String × Bytes) :=
  [("repositories", Bytes.text 0 Json.null)]

/-- A document with a value that is not a JSON text. -/
def brokenDocument : List (String × Bytes) :=
  [("broken", Bytes.malformed 7)]

/-- A manifest with the one repository `u1`, of type `git`. -/
def singleDocument : List (String × Bytes) :=
  [("repositories", Bytes.text 0 (Json.array
      [Json.object [("type", Json.string "git"), ("url", Json.string "u1")]]))]

/-- A provider that reports a key that does not exist by the nil interface
value. -/
def nilInterfaceProvider : Provider where
  Get := fun _ => GoValue.nil
  GetContentMap := ∅

/-- The file system without files. -/
def noFiles : FileSystem := fun _ => none

/-! ## Two range orders -/

theorem GoMap.sortedKeys_perm {V : Type} (m : GoMap V) :
    ∃ l : List String, m.keys.val = l ∧ m.sortedKeys = l.insertionSort keyLE := by
  obtain ⟨l, hl⟩ := Quot.exists_rep m.keys.val
  refine ⟨l, hl.symm, ?_⟩
  unfold GoMap.sortedKeys
  rw [← hl]

theorem GoMap.mem_sortedKeys {V : Type} (m : GoMap V) (k : String) :
    k ∈ m.sortedKeys ↔ k ∈ m := by
  obtain ⟨l, hl, hs⟩ := m.sortedKeys_perm
  rw [hs, (List.perm_insertionSort keyLE l).mem_iff, ← Finmap.mem_keys, ← Finset.mem_val, hl]
  rfl

theorem GoMap.nodup_sortedKeys {V : Type} (m : GoMap V) : m.sortedKeys.Nodup := by
  obtain ⟨l, hl, hs⟩ := m.sortedKeys_perm
  rw [hs, (List.perm_insertionSort keyLE l).nodup_iff]
  have h := m.keys.nodup
  rw [hl] at h
  exact h

theorem GoMap.sorted_sortedKeys {V : Type} (m : GoMap V) : m.sortedKeys.Sorted keyLE := by
  obtain ⟨l, _, hs⟩ := m.sortedKeys_perm
  rw [hs]
  exact List.sorted_insertionSort keyLE l

theorem GoMap.mem_sortedEntries {V : Type} (m : GoMap V) (k : String) (v : V) :
    (k, v) ∈ m.sortedEntries ↔ m.lookup k = some v := by
  unfold GoMap.sortedEntries
  rw [List.mem_filterMap]
  constructor
  · rintro ⟨a, _, ha⟩
    cases hl : Finmap.lookup a m with
    | none => simp [hl] at ha
    | some w =>
      simp only [hl, Option.map_some', Option.some.injEq, Prod.mk.injEq] at ha
      obtain ⟨rfl, rfl⟩ := ha
      exact hl
  · intro h
    exact ⟨k, (m.mem_sortedKeys k).2 (Finmap.mem_of_lookup_eq_some h), by simp [h]⟩

theorem GoMap.sortedEntries_keys {V : Type} (m : GoMap V) :
    m.sortedEntries.map Prod.fst = m.sortedKeys := by
  unfold GoMap.sortedEntries
  have key : ∀ l : List String, (∀ k ∈ l, k ∈ m) →
      (l.filterMap (fun k => (m.lookup k).map (fun v => (k, v)))).map Prod.fst = l := by
    intro l
    induction l with
    | nil => intro _; rfl
    | cons a t ih =>
      intro h
      obtain ⟨b, hb⟩ := Finmap.mem_iff.1 (h a (List.mem_cons_self a t))
      rw [List.filterMap_cons_some (by rw [hb]; rfl), List.map_cons,
        ih (fun k hk => h k (List.mem_cons_of_mem a hk))]
  exact key _ (fun k hk => (m.mem_sortedKeys k).1 hk)

/-- The range order that visits the keys in ascending order. -/
def RangeOrder.ascending : RangeOrder where
  order := fun m => m.sortedEntries
  nodup := fun m => by rw [m.sortedEntries_keys]; exact m.nodup_sortedKeys
  mem_iff := fun m k v => m.mem_sortedEntries k v

/-- The range order that visits the keys in descending order. -/
def RangeOrder.descending : RangeOrder where
  order := fun m => m.sortedEntries.reverse
  nodup := fun m => by
    rw [List.map_reverse, List.nodup_reverse, m.sortedEntries_keys]
    exact m.nodup_sortedKeys
  mem_iff := fun m k v => by rw [List.mem_reverse]; exact m.mem_sortedEntries k v

/-! ## Facts about maps and range orders -/

/-- In a list of entries with distinct keys, the entries under key `u` are the
one value `o` that the list holds for `u`, if any. -/
theorem filter_key_of_nodup {V : Type} (u : String) :
    ∀ (l : List (String × V)) (o : Option V), (l.map Prod.fst).Nodup →
      (∀ v, (u, v) ∈ l ↔ o = some v) →
      (l.filter (fun p => decide (p.1 = u))).map Prod.snd = o.toList
  | [], o, _, h => by
      cases o with
      | none => rfl
      | some v => exact absurd ((h v).2 rfl) (List.not_mem_nil _)
  | (k, v) :: t, o, hnd, h => by
      rw [List.map_cons, List.nodup_cons] at hnd
      by_cases hk : k = u
      · subst hk
        have ho : o = some v := (h v).1 (List.mem_cons_self _ _)
        have ht : t.filter (fun p => decide (p.1 = k)) = [] := by
          rw [List.filter_eq_nil_iff]
          intro p hp hpk
          exact hnd.1 (List.mem_map.2 ⟨p, hp, of_decide_eq_true hpk⟩)
        rw [List.filter_cons_of_pos (by simp), ht, ho]
        rfl
      · rw [List.filter_cons_of_neg (by simpa using hk)]
        refine filter_key_of_nodup u t o hnd.2 (fun w => ?_)
        rw [← h w, List.mem_cons]
        constructor
        · exact fun hw => Or.inr hw
        · rintro (hw | hw)
          · exact absurd (Prod.mk.inj hw).1.symm hk
          · exact hw

theorem RangeOrder.filter_key {V : Type} (ρ : RangeOrder) (m : GoMap V) (u : String) :
    ((ρ.order m).filter (fun p => decide (p.1 = u))).map Prod.snd = (m.lookup u).toList :=
  filter_key_of_nodup u (ρ.order m) (m.lookup u) (ρ.nodup m) (fun v => ρ.mem_iff m u v)

theorem RangeOrder.order_empty {V : Type} (ρ : RangeOrder) : ρ.order (∅ : GoMap V) = [] := by
  apply List.eq_nil_iff_forall_not_mem.2
  rintro ⟨k, v⟩ h
  have := (ρ.mem_iff (∅ : GoMap V) k v).1 h
  simp [Finmap.lookup_empty] at this

theorem foldl_append_singleton {α β : Type} (f : α → β) (l : List α) (acc : List β) :
    l.foldl (fun c x => c ++ [f x]) acc = acc ++ l.map f := by
  induction l generalizing acc with
  | nil => simp
  | cons a t ih => simp [ih]

theorem Satis.GetRepositoriesAsSlice_eq (ρ : RangeOrder) (s : Satis) :
    s.GetRepositoriesAsSlice ρ = (ρ.order s.repositories).map Prod.snd := by
  unfold Satis.GetRepositoriesAsSlice
  rw [foldl_append_singleton]
  rfl

theorem Satis.mem_GetRepositoriesAsSlice (ρ : RangeOrder) (s : Satis) (r : SatisRepository) :
    r ∈ s.GetRepositoriesAsSlice ρ ↔ ∃ k, s.repositories.lookup k = some r := by
  rw [Satis.GetRepositoriesAsSlice_eq, List.mem_map]
  constructor
  · rintro ⟨⟨k, v⟩, h, rfl⟩
    exact ⟨k, (ρ.mem_iff _ k v).1 h⟩
  · rintro ⟨k, h⟩
    exact ⟨(k, r), (ρ.mem_iff _ k r).2 h, rfl⟩

theorem Satis.Coherent.map_URL {s : Satis} (h : s.Coherent) (ρ : RangeOrder) :
    (s.GetRepositoriesAsSlice ρ).map SatisRepository.URL =
      (ρ.order s.repositories).map Prod.fst := by
  rw [Satis.GetRepositoriesAsSlice_eq, List.map_map]
  apply List.map_congr_left
  rintro ⟨k, r⟩ hkr
  exact h k r ((ρ.mem_iff _ k r).1 hkr)

theorem Satis.Coherent.filter_URL {s : Satis} (h : s.Coherent) (ρ : RangeOrder) (u : String) :
    (s.GetRepositoriesAsSlice ρ).filter (fun r => decide (r.URL = u)) =
      (s.repositories.lookup u).toList := by
  rw [Satis.GetRepositoriesAsSlice_eq, ← ρ.filter_key s.repositories u, List.filter_map]
  congr 1
  apply List.filter_congr
  rintro ⟨k, r⟩ hkr
  have := h k r ((ρ.mem_iff _ k r).1 hkr)
  simp [Function.comp, this]

theorem GoValue.isRawMessage_iff (v : GoValue) :
    v.isRawMessage = true ↔ ∃ b, v = GoValue.rawMessage b := by
  cases v <;> simp [GoValue.isRawMessage]

/-- A property of all entries of a map can be checked on the list of its
entries. -/
theorem GoMap.forall_lookup_of_sortedEntries {V : Type} (m : GoMap V) (P : String → V → Prop)
    (h : ∀ p ∈ m.sortedEntries, P p.1 p.2) : ∀ k v, m.lookup k = some v → P k v :=
  fun k v hkv => h (k, v) ((m.mem_sortedEntries k v).2 hkv)

theorem GoMap.keys_insert {V : Type} (m : GoMap V) (k : String) (v : V) :
    (m.insert k v).keys = insert k m.keys := by
  ext a
  simp [Finmap.mem_keys, Finmap.mem_insert]

theorem GoMap.keys_eq_of_lookup {V W : Type} (m : GoMap V) (n : GoMap W) (f : V → W)
    (h : ∀ k, (m.lookup k).map f = n.lookup k) : m.keys = n.keys := by
  ext a
  rw [Finmap.mem_keys, Finmap.mem_keys, ← Finmap.lookup_isSome, ← Finmap.lookup_isSome, ← h a]
  cases Finmap.lookup a m <;> rfl

/-- The loop of lines 99 to 102 over entries with distinct keys, all of them
raw messages: it ends normally, an entry of the list is in the result, and the
other keys are as in the map the loop started from. -/
theorem foldlM_assertRawMessage :
    ∀ (l : List (String × GoValue)) (acc : GoMap Bytes), (l.map Prod.fst).Nodup →
      (∀ p ∈ l, p.2.isRawMessage = true) →
      ∃ m, l.foldlM (fun m kv => (kv.2.assertRawMessage).map (fun t => m.insert kv.1 t)) acc
          = Except.ok m ∧
        (∀ k b, (k, GoValue.rawMessage b) ∈ l → m.lookup k = some b) ∧
        (∀ k, k ∉ l.map Prod.fst → m.lookup k = acc.lookup k)
  | [], acc, _, _ => ⟨acc, rfl, fun _ _ h => absurd h (List.not_mem_nil _), fun _ _ => rfl⟩
  | (k₀, v₀) :: t, acc, hnd, hraw => by
      rw [List.map_cons, List.nodup_cons] at hnd
      obtain ⟨b₀, hb₀⟩ := (GoValue.isRawMessage_iff v₀).1 (hraw (k₀, v₀) (List.mem_cons_self _ _))
      subst hb₀
      obtain ⟨m, hm, hin, hout⟩ := foldlM_assertRawMessage t (acc.insert k₀ b₀) hnd.2
        (fun p hp => hraw p (List.mem_cons_of_mem _ hp))
      refine ⟨m, ?_, ?_, ?_⟩
      · rw [List.foldlM_cons]
        exact hm
      · intro k b hkb
        rcases List.mem_cons.1 hkb with h | h
        · obtain ⟨rfl, hb⟩ := Prod.mk.inj h
          cases hb
          rw [hout k hnd.1, Finmap.lookup_insert]
        · exact hin k b h
      · intro k hk
        rw [List.map_cons, List.mem_cons, not_or] at hk
        rw [hout k hk.2, Finmap.lookup_insert_of_ne _ hk.1]

theorem Satis.WriteFile.contentPointers_ok (ρ : RangeOrder) (contentMap : GoMap GoValue)
    (hraw : ∀ k v, contentMap.lookup k = some v → v.isRawMessage = true) :
    ∃ m, Satis.WriteFile.contentPointers ρ contentMap = Except.ok m ∧
      ∀ k, (m.lookup k).map GoValue.rawMessage = contentMap.lookup k := by
  obtain ⟨m, hm, hin, hout⟩ := foldlM_assertRawMessage (ρ.order contentMap) ∅ (ρ.nodup contentMap)
    (fun p hp => hraw p.1 p.2 ((ρ.mem_iff contentMap p.1 p.2).1 hp))
  refine ⟨m, hm, fun k => ?_⟩
  cases hk : Finmap.lookup k contentMap with
  | none =>
    have hnot : k ∉ (ρ.order contentMap).map Prod.fst := by
      intro hmem
      obtain ⟨⟨k', v⟩, hp, rfl⟩ := List.mem_map.1 hmem
      have := (ρ.mem_iff contentMap k' v).1 hp
      rw [hk] at this
      cases this
    rw [hout k hnot, Finmap.lookup_empty]
    rfl
  | some v =>
    obtain ⟨b, rfl⟩ := (GoValue.isRawMessage_iff v).1 (hraw k v hk)
    rw [hin k b ((ρ.mem_iff contentMap k _).2 hk)]
    rfl

/-! ## The claims -/

/-- C1. When every value of the provider's content map is a raw JSON value,
`WriteFile` reaches its final serializer with a document `m` whose keys are the
keys of the content map and `"repositories"`, and under every other key than
`"repositories"` the document holds the raw value `GetContentMap` returned for
it. -/
theorem WriteFile_passes_other_keys_through (ρ₁ ρ₂ : RangeOrder) (s : Satis)
    (hraw : ∀ k v, s.config.GetContentMap.lookup k = some v → v.isRawMessage = true) :
    ∃ m, Satis.WriteFile.document ρ₁ ρ₂ s = Except.ok (Except.ok m) ∧
      Satis.WriteFile.encode ρ₁ ρ₂ s = Except.ok (json.MarshalIndentDocument m) ∧
      m.keys = insert "repositories" s.config.GetContentMap.keys ∧
      ∀ k, k ≠ "repositories" →
        (m.lookup k).map GoValue.rawMessage = s.config.GetContentMap.lookup k := by
  obtain ⟨m, hm, hlook⟩ := Satis.WriteFile.contentPointers_ok ρ₁ s.config.GetContentMap hraw
  have hdoc : Satis.WriteFile.document ρ₁ ρ₂ s = Except.ok (Except.ok
      (m.insert "repositories"
        (Bytes.text 0 (Json.array ((s.GetRepositoriesAsSlice ρ₂).map SatisRepository.toJson))))) := by
    unfold Satis.WriteFile.document
    rw [hm]
    rfl
  refine ⟨_, hdoc, ?_, ?_, ?_⟩
  · unfold Satis.WriteFile.encode
    rw [hdoc]
  · rw [GoMap.keys_insert, GoMap.keys_eq_of_lookup m _ _ hlook]
  · intro k hk
    rw [Finmap.lookup_insert_of_ne _ hk]
    exact hlook k

/-- Every value of the sample content map is a raw message. -/
theorem sampleSatis_content_raw :
    ∀ k v, sampleSatis.config.GetContentMap.lookup k = some v → v.isRawMessage = true :=
  GoMap.forall_lookup_of_sortedEntries _ (fun _ (v : GoValue) => v.isRawMessage = true)
    (by decide)

/-- C1 on the sample manifest. -/
theorem WriteFile_passes_other_keys_through_witness :
    (∀ k v, sampleSatis.config.GetContentMap.lookup k = some v → v.isRawMessage = true) ∧
    ∃ m, Satis.WriteFile.document RangeOrder.ascending RangeOrder.descending sampleSatis
        = Except.ok (Except.ok m) ∧
      Satis.WriteFile.encode RangeOrder.ascending RangeOrder.descending sampleSatis
        = Except.ok (json.MarshalIndentDocument m) ∧
      m.keys = insert "repositories" sampleSatis.config.GetContentMap.keys ∧
      ∀ k, k ≠ "repositories" →
        (m.lookup k).map GoValue.rawMessage = sampleSatis.config.GetContentMap.lookup k :=
  ⟨sampleSatis_content_raw,
    WriteFile_passes_other_keys_through RangeOrder.ascending RangeOrder.descending sampleSatis
      sampleSatis_content_raw⟩

theorem SatisRepository.decode_toJson (r : SatisRepository) :
    SatisRepository.decode r.toJson = Except.ok r := by
  have h₁ : matchesField "type" "type" = true := by decide
  have h₂ : matchesField "url" "type" = false := by decide
  have h₃ : matchesField "url" "url" = true := by decide
  simp [SatisRepository.decode, SatisRepository.toJson, List.foldlM_cons, List.foldlM_nil,
    SatisRepository.decodeMember, decodeStringField, h₁, h₂, h₃, Except.map, bind, Except.bind,
    pure, Except.pure]

theorem mapM_decode_toJson (l : List SatisRepository) :
    (l.map SatisRepository.toJson).mapM SatisRepository.decode = Except.ok l := by
  induction l with
  | nil => rfl
  | cons r t ih =>
    rw [List.map_cons, List.mapM_cons, SatisRepository.decode_toJson, ih]
    rfl

/-- Decoding what `json.MarshalIndent` printed for a list of entries gives the
list back. -/
theorem json.Unmarshal_MarshalIndentRepositories (l : List SatisRepository) (layout : Nat) :
    json.Unmarshal (Bytes.text layout (Json.array (l.map SatisRepository.toJson)))
      = Except.ok l := by
  unfold json.Unmarshal decodeRepositories
  exact mapM_decode_toJson l

theorem RangeOrder.order_singleton {V : Type} (ρ : RangeOrder) (k : String) (v : V) :
    ρ.order ((∅ : GoMap V).insert k v) = [(k, v)] := by
  have hall : ∀ p ∈ ρ.order ((∅ : GoMap V).insert k v), p = (k, v) := by
    rintro ⟨a, b⟩ hp
    have h := (ρ.mem_iff _ a b).1 hp
    by_cases ha : a = k
    · subst ha
      rw [Finmap.lookup_insert] at h
      cases h
      rfl
    · rw [Finmap.lookup_insert_of_ne _ ha, Finmap.lookup_empty] at h
      cases h
  have hmem : (k, v) ∈ ρ.order ((∅ : GoMap V).insert k v) :=
    (ρ.mem_iff _ k v).2 (Finmap.lookup_insert _)
  have hnd := ρ.nodup ((∅ : GoMap V).insert k v)
  generalize ρ.order ((∅ : GoMap V).insert k v) = l at hall hmem hnd
  match l, hall, hmem, hnd with
  | [p], hall, _, _ => rw [hall p (List.mem_singleton_self p)]
  | p :: q :: t, hall, _, hnd =>
    exfalso
    have hp := hall p (List.mem_cons_self _ _)
    have hq := hall q (List.mem_cons_of_mem _ (List.mem_cons_self _ _))
    rw [hp, hq] at hnd
    simp at hnd

theorem NewSatis.deduplicate_nil : NewSatis.deduplicate [] = ∅ := rfl

theorem NewSatis_of_absent (c : Provider)
    (h : c.Get "repositories" = GoValue.rawMessagePtr none) :
    NewSatis (some c) = Except.ok (some { config := c, repositories := ∅ }, none) := by
  simp only [NewSatis, NewSatis.readRepositories, h, GoValue.assertRawMessagePtr]
  rfl

theorem NewSatis_of_parsed (c : Provider) (data : Bytes) (L : List SatisRepository)
    (h : c.Get "repositories" = GoValue.rawMessagePtr (some data))
    (hL : json.Unmarshal data = Except.ok L) :
    NewSatis (some c) =
      Except.ok (some { config := c, repositories := NewSatis.deduplicate L }, none) := by
  simp only [NewSatis, NewSatis.readRepositories, h, GoValue.assertRawMessagePtr, hL]

theorem Satis.WriteFile.document_of_raw (ρ₁ ρ₂ : RangeOrder) (s : Satis)
    (hraw : ∀ k v, s.config.GetContentMap.lookup k = some v → v.isRawMessage = true) :
    ∃ m, Satis.WriteFile.contentPointers ρ₁ s.config.GetContentMap = Except.ok m ∧
      (∀ k, (m.lookup k).map GoValue.rawMessage = s.config.GetContentMap.lookup k) ∧
      Satis.WriteFile.document ρ₁ ρ₂ s = Except.ok (Except.ok (m.insert "repositories"
        (Bytes.text 0 (Json.array ((s.GetRepositoriesAsSlice ρ₂).map SatisRepository.toJson))))) := by
  obtain ⟨m, hm, hlook⟩ := Satis.WriteFile.contentPointers_ok ρ₁ s.config.GetContentMap hraw
  refine ⟨m, hm, hlook, ?_⟩
  unfold Satis.WriteFile.document
  rw [hm]
  rfl

/-- Every value of the manifest without repositories is a raw message. -/
theorem bareDocument_content_raw :
    ∀ k v, (Provider.ofDocument bareDocument).GetContentMap.lookup k = some v →
      v.isRawMessage = true :=
  GoMap.forall_lookup_of_sortedEntries _ (fun _ (v : GoValue) => v.isRawMessage = true)
    (by decide)

/-! ### Adding repositories -/

theorem Satis.lookup_AddRepository (s : Satis) (u k : String) :
    (s.AddRepository u).repositories.lookup k =
      if k = u then some ⟨"git", u⟩ else s.repositories.lookup k := by
  unfold Satis.AddRepository
  by_cases h : k = u
  · subst h
    rw [if_pos rfl]
    exact Finmap.lookup_insert _
  · rw [if_neg h]
    exact Finmap.lookup_insert_of_ne _ h

theorem Satis.lookup_foldl_AddRepository (us : List String) (s : Satis) (k : String) :
    (us.foldl Satis.AddRepository s).repositories.lookup k =
      if k ∈ us then some ⟨"git", k⟩ else s.repositories.lookup k := by
  induction us generalizing s with
  | nil => simp
  | cons a t ih =>
    rw [List.foldl_cons, ih, Satis.lookup_AddRepository]
    by_cases hk : k ∈ t
    · rw [if_pos hk, if_pos (List.mem_cons_of_mem _ hk)]
    · rw [if_neg hk]
      by_cases ha : k = a
      · subst ha
        rw [if_pos rfl, if_pos (List.mem_cons_self _ _)]
      · rw [if_neg ha, if_neg (by simp [ha, hk])]

theorem Satis.config_foldl_AddRepository (us : List String) (s : Satis) :
    (us.foldl Satis.AddRepository s).config = s.config := by
  induction us generalizing s with
  | nil => rfl
  | cons a t ih => rw [List.foldl_cons, ih]; rfl

theorem Satis.Coherent.foldl_AddRepository {s : Satis} (h : s.Coherent) (us : List String) :
    (us.foldl Satis.AddRepository s).Coherent := by
  intro k r hkr
  rw [Satis.lookup_foldl_AddRepository] at hkr
  by_cases hk : k ∈ us
  · rw [if_pos hk] at hkr
    cases hkr
    rfl
  · rw [if_neg hk] at hkr
    exact h k r hkr

/-- C3. Dedup invariant. From a registry keyed by URL, after any finite
sequence of `AddRepository` calls the slice returned by
`GetRepositoriesAsSlice` has no two entries with the same URL, and for every
URL `u` that was added, the entry for `u` is there and has type `"git"`. -/
theorem AddRepository_dedup_invariant (ρ : RangeOrder) (s : Satis) (us : List String)
    (h : s.Coherent) :
    (((us.foldl Satis.AddRepository s).GetRepositoriesAsSlice ρ).map SatisRepository.URL).Nodup ∧
    (∀ u ∈ us, (⟨"git", u⟩ : SatisRepository) ∈
      (us.foldl Satis.AddRepository s).GetRepositoriesAsSlice ρ) ∧
    (∀ u ∈ us, ∀ r ∈ (us.foldl Satis.AddRepository s).GetRepositoriesAsSlice ρ,
      r.URL = u → r.«Type» = "git") := by
  have hc := h.foldl_AddRepository us
  refine ⟨?_, ?_, ?_⟩
  · rw [hc.map_URL ρ]
    exact ρ.nodup _
  · intro u hu
    rw [Satis.mem_GetRepositoriesAsSlice]
    exact ⟨u, by rw [Satis.lookup_foldl_AddRepository, if_pos hu]⟩
  · intro u hu r hr hru
    have hmem : r ∈ ((us.foldl Satis.AddRepository s).GetRepositoriesAsSlice ρ).filter
        (fun r => decide (r.URL = u)) := List.mem_filter.2 ⟨hr, by simpa using hru⟩
    rw [hc.filter_URL ρ u, Satis.lookup_foldl_AddRepository, if_pos hu] at hmem
    simp at hmem
    rw [hmem]

/-- The registry loaded from the sample manifest is keyed by URL. -/
theorem sampleSatis_coherent : sampleSatis.Coherent :=
  GoMap.forall_lookup_of_sortedEntries _ (fun k (r : SatisRepository) => r.URL = k) (by decide)

/-- C3 on the registry of the sample manifest and three calls. -/
theorem AddRepository_dedup_invariant_witness :
    sampleSatis.Coherent ∧
    ((([ "u1", "u3", "u1" ].foldl Satis.AddRepository sampleSatis).GetRepositoriesAsSlice
        RangeOrder.descending).map SatisRepository.URL).Nodup ∧
    (∀ u ∈ [ "u1", "u3", "u1" ], (⟨"git", u⟩ : SatisRepository) ∈
      ([ "u1", "u3", "u1" ].foldl Satis.AddRepository sampleSatis).GetRepositoriesAsSlice
        RangeOrder.descending) ∧
    (∀ u ∈ [ "u1", "u3", "u1" ],
      ∀ r ∈ ([ "u1", "u3", "u1" ].foldl Satis.AddRepository sampleSatis).GetRepositoriesAsSlice
        RangeOrder.descending, r.URL = u → r.«Type» = "git") :=
  ⟨sampleSatis_coherent,
    AddRepository_dedup_invariant RangeOrder.descending sampleSatis [ "u1", "u3", "u1" ]
      sampleSatis_coherent⟩

/-- When `Get("repositories")` returns a value that is no `*json.RawMessage`,
the nil interface value included, the type assertion of line 52 panics. -/
theorem NewSatis_panics_of_other_type (c : Provider)
    (h : ∀ p, c.Get "repositories" ≠ GoValue.rawMessagePtr p) :
    NewSatis (some c) = Except.error (Panic.interfaceConversion "*json.RawMessage") := by
  simp only [NewSatis, NewSatis.readRepositories]
  cases hg : c.Get "repositories" with
  | rawMessagePtr p => exact absurd hg (h p)
  | nil => rfl
  | rawMessage b => rfl
  | other t => rfl

/-- C4, as amended. For a provider whose `Get("repositories")` returns a nil
`*json.RawMessage` (the key does not exist), `NewSatis` ends normally with a
Satis object and no error, and the registry of that object is empty. -/
theorem NewSatis_absent_key_is_empty (c : Provider)
    (h : c.Get "repositories" = GoValue.rawMessagePtr none) :
    ∃ s, NewSatis (some c) = Except.ok (some s, none) ∧ s.config = c ∧
      s.repositories = ∅ ∧ ∀ ρ : RangeOrder, s.GetRepositoriesAsSlice ρ = [] := by
  refine ⟨{ config := c, repositories := ∅ }, NewSatis_of_absent c h, rfl, rfl, fun ρ => ?_⟩
  rw [Satis.GetRepositoriesAsSlice_eq, RangeOrder.order_empty]
  rfl

/-- C4 as amended, on the manifest without repositories. -/
theorem NewSatis_absent_key_is_empty_witness :
    (Provider.ofDocument bareDocument).Get "repositories" = GoValue.rawMessagePtr none ∧
    ∃ s, NewSatis (some (Provider.ofDocument bareDocument)) = Except.ok (some s, none) ∧
      s.config = Provider.ofDocument bareDocument ∧
      s.repositories = ∅ ∧ ∀ ρ : RangeOrder, s.GetRepositoriesAsSlice ρ = [] :=
  ⟨rfl, NewSatis_absent_key_is_empty (Provider.ofDocument bareDocument) rfl⟩

/-- C4, the claim as stated fails: for a provider that reports the key that
does not exist by the nil interface value, the type assertion of line 52
panics, and `NewSatis` returns no Satis object. -/
theorem NewSatis_panics_on_nil_interface :
    nilInterfaceProvider.Get "repositories" = GoValue.nil ∧
    NewSatis (some nilInterfaceProvider)
      = Except.error (Panic.interfaceConversion "*json.RawMessage") ∧
    ¬ ∃ s, NewSatis (some nilInterfaceProvider) = Except.ok (some s, none) := by
  refine ⟨rfl, rfl, ?_⟩
  rintro ⟨s, hs⟩
  have h : NewSatis (some nilInterfaceProvider)
      = Except.error (Panic.interfaceConversion "*json.RawMessage") := rfl
  rw [h] at hs
  cases hs

/-! ### Loading repositories -/

theorem NewSatis.deduplicate_concat (L : List SatisRepository) (a : SatisRepository) :
    NewSatis.deduplicate (L ++ [a]) = (NewSatis.deduplicate L).insert a.URL a := by
  unfold NewSatis.deduplicate
  rw [List.foldl_append]
  rfl

theorem NewSatis.lookup_deduplicate (L : List SatisRepository) (u : String) :
    (NewSatis.deduplicate L).lookup u = lastWithURL L u := by
  induction L using List.reverseRecOn with
  | nil => rfl
  | append_singleton L a ih =>
    rw [NewSatis.deduplicate_concat]
    unfold lastWithURL at ih ⊢
    rw [List.filter_append]
    by_cases h : a.URL = u
    · subst h
      rw [Finmap.lookup_insert, List.filter_cons_of_pos (by simp), List.filter_nil,
        List.getLast?_concat]
    · rw [Finmap.lookup_insert_of_ne _ (Ne.symm h), List.filter_cons_of_neg (by simpa using h),
        List.filter_nil, List.append_nil, ih]

theorem lastWithURL_mem {L : List SatisRepository} {u : String} {r : SatisRepository}
    (h : lastWithURL L u = some r) : r ∈ L ∧ r.URL = u := by
  have := List.mem_of_mem_getLast? (Option.mem_def.2 h)
  rw [List.mem_filter] at this
  exact ⟨this.1, by simpa using this.2⟩

theorem lastWithURL_isSome {L : List SatisRepository} {u : String}
    (h : u ∈ L.map SatisRepository.URL) : ∃ r, lastWithURL L u = some r := by
  obtain ⟨r, hr, hru⟩ := List.mem_map.1 h
  have hne : L.filter (fun r => decide (r.URL = u)) ≠ [] :=
    List.ne_nil_of_mem (List.mem_filter.2 ⟨hr, by simpa using hru⟩)
  unfold lastWithURL
  cases hl : (L.filter (fun r => decide (r.URL = u))).getLast? with
  | none => exact absurd (List.getLast?_eq_none_iff.1 hl) hne
  | some r' => exact ⟨r', rfl⟩

theorem NewSatis.deduplicate_coherent (c : Provider) (L : List SatisRepository) :
    Satis.Coherent { config := c, repositories := NewSatis.deduplicate L } := by
  intro k r hkr
  rw [NewSatis.lookup_deduplicate] at hkr
  exact (lastWithURL_mem hkr).2

/-- C5. When the provider's `"repositories"` value parses to the sequence `L`,
`NewSatis` builds a registry that maps every URL `u` to the last element of `L`
with URL `u`: the slice of the registry has exactly that one entry for a URL
that occurs in `L`, with the type it was loaded with, and no entry for a URL
that does not occur in `L`. -/
theorem NewSatis_last_loaded_entry_wins (c : Provider) (data : Bytes) (L : List SatisRepository)
    (hget : c.Get "repositories" = GoValue.rawMessagePtr (some data))
    (hparse : json.Unmarshal data = Except.ok L) :
    ∃ s, NewSatis (some c) = Except.ok (some s, none) ∧
      (∀ u, s.repositories.lookup u = lastWithURL L u) ∧
      (∀ (ρ : RangeOrder) (u : String),
        (s.GetRepositoriesAsSlice ρ).filter (fun r => decide (r.URL = u))
          = (lastWithURL L u).toList) ∧
      (∀ (ρ : RangeOrder), ∀ u ∈ L.map SatisRepository.URL, ∃ r ∈ L, r.URL = u ∧
        lastWithURL L u = some r ∧
        (s.GetRepositoriesAsSlice ρ).filter (fun r => decide (r.URL = u)) = [r]) ∧
      (∀ (ρ : RangeOrder), ∀ r ∈ s.GetRepositoriesAsSlice ρ, r ∈ L) := by
  have hc := NewSatis.deduplicate_coherent c L
  have hfilter : ∀ (ρ : RangeOrder) (u : String),
      (Satis.GetRepositoriesAsSlice ρ { config := c, repositories := NewSatis.deduplicate L }).filter
        (fun r => decide (r.URL = u)) = (lastWithURL L u).toList := by
    intro ρ u
    rw [hc.filter_URL ρ u]
    exact congrArg Option.toList (NewSatis.lookup_deduplicate L u)
  refine ⟨_, NewSatis_of_parsed c data L hget hparse, NewSatis.lookup_deduplicate L, hfilter,
    ?_, ?_⟩
  · intro ρ u hu
    obtain ⟨r, hr⟩ := lastWithURL_isSome hu
    refine ⟨r, (lastWithURL_mem hr).1, (lastWithURL_mem hr).2, hr, ?_⟩
    rw [hfilter ρ u, hr]
    rfl
  · intro ρ r hr
    obtain ⟨k, hk⟩ := (Satis.mem_GetRepositoriesAsSlice ρ _ r).1 hr
    rw [NewSatis.lookup_deduplicate] at hk
    exact (lastWithURL_mem hk).1

/-- C5 on the sample manifest: of the two entries for `u1` the later one is
kept, with its type. -/
theorem NewSatis_last_loaded_entry_wins_witness :
    (Provider.ofDocument sampleDocument).Get "repositories"
      = GoValue.rawMessagePtr (List.lookup "repositories" sampleDocument) ∧
    (List.lookup "repositories" sampleDocument).map json.Unmarshal
      = some (Except.ok sampleRepositories) ∧
    ∃ s, NewSatis (some (Provider.ofDocument sampleDocument)) = Except.ok (some s, none) ∧
      s.repositories.lookup "u1" = some ⟨"hg", "u1"⟩ ∧
      s.GetRepositoriesAsSlice RangeOrder.ascending = [⟨"hg", "u1"⟩, ⟨"git", "u2"⟩] := by
  refine ⟨rfl, by decide, ?_⟩
  obtain ⟨s, hs, hlook, _⟩ := NewSatis_last_loaded_entry_wins (Provider.ofDocument sampleDocument)
    (Bytes.text 2 (Json.array
      [Json.object [("type", Json.string "svn"), ("url", Json.string "u1")],
       Json.object [("type", Json.string "git"), ("url", Json.string "u2")],
       Json.object [("type", Json.string "hg"), ("url", Json.string "u1")]]))
    sampleRepositories rfl (by decide)
  refine ⟨s, hs, (hlook "u1").trans (by decide), ?_⟩
  rw [NewSatis_of_parsed (Provider.ofDocument sampleDocument) _ sampleRepositories rfl
    (by decide)] at hs
  cases hs
  decide

/-! ### Failures of `NewSatis` -/

theorem decodeStringField_error {old : String} {v : Json} {e : GoError}
    (h : decodeStringField old v = Except.error e) : e.isErrorString = false := by
  cases v <;> simp [decodeStringField] at h <;> subst h <;> rfl

theorem SatisRepository.decodeMember_error {r : SatisRepository} {kv : String × Json}
    {e : GoError} (h : r.decodeMember kv = Except.error e) : e.isErrorString = false := by
  unfold SatisRepository.decodeMember at h
  split at h
  · cases hd : decodeStringField r.«Type» kv.2 with
    | error e' =>
      rw [hd] at h
      cases h
      exact decodeStringField_error hd
    | ok t => rw [hd] at h; cases h
  · split at h
    · cases hd : decodeStringField r.URL kv.2 with
      | error e' =>
        rw [hd] at h
        cases h
        exact decodeStringField_error hd
      | ok t => rw [hd] at h; cases h
    · cases h

theorem foldlM_decodeMember_error {e : GoError} :
    ∀ (members : List (String × Json)) (r : SatisRepository),
      members.foldlM SatisRepository.decodeMember r = Except.error e → e.isErrorString = false
  | [], r, h => by cases h
  | kv :: t, r, h => by
      rw [List.foldlM_cons] at h
      cases hd : r.decodeMember kv with
      | error e' =>
        rw [hd] at h
        cases h
        exact SatisRepository.decodeMember_error hd
      | ok r' =>
        rw [hd] at h
        exact foldlM_decodeMember_error t r' h

theorem SatisRepository.decode_error {v : Json} {e : GoError}
    (h : SatisRepository.decode v = Except.error e) : e.isErrorString = false := by
  cases v with
  | object members => exact foldlM_decodeMember_error members _ h
  | null => cases h
  | bool b => cases h; rfl
  | number n => cases h; rfl
  | string x => cases h; rfl
  | array l => cases h; rfl

theorem mapM_decode_error {e : GoError} :
    ∀ (elems : List Json), elems.mapM SatisRepository.decode = Except.error e →
      e.isErrorString = false
  | [], h => by cases h
  | v :: t, h => by
      rw [List.mapM_cons] at h
      cases hd : SatisRepository.decode v with
      | error e' =>
        rw [hd] at h
        cases h
        exact SatisRepository.decode_error hd
      | ok r =>
        rw [hd] at h
        cases ht : t.mapM SatisRepository.decode with
        | error e' =>
          rw [ht] at h
          cases h
          exact mapM_decode_error t ht
        | ok rs => rw [ht] at h; cases h

/-- The errors of `json.Unmarshal` are errors of `encoding/json`, not made by
`errors.New`. -/
theorem json.Unmarshal_error {data : Bytes} {e : GoError}
    (h : json.Unmarshal data = Except.error e) : e.isErrorString = false := by
  cases data with
  | nil => cases h; rfl
  | malformed n => cases h; rfl
  | text layout v =>
    cases v with
    | array elems => exact mapM_decode_error elems h
    | null => cases h
    | bool b => cases h; rfl
    | number n => cases h; rfl
    | string x => cases h; rfl
    | object l => cases h; rfl

/-- What `NewSatis` returns for a provider that is not nil, by the result of
reading the repositories. -/
theorem NewSatis_some_error {c : Provider} {x : Option Satis} {e : GoError}
    (h : NewSatis (some c) = Except.ok (x, some e)) :
    x = none ∧ ∃ data, c.Get "repositories" = GoValue.rawMessagePtr (some data) ∧
      json.Unmarshal data = Except.error e := by
  simp only [NewSatis, NewSatis.readRepositories] at h
  cases hg : c.Get "repositories" with
  | nil => rw [hg] at h; cases h
  | rawMessage b => rw [hg] at h; cases h
  | other t => rw [hg] at h; cases h
  | rawMessagePtr p =>
    rw [hg] at h
    cases p with
    | none => cases h
    | some data =>
      simp only [GoValue.assertRawMessagePtr] at h
      cases hu : json.Unmarshal data with
      | ok L => rw [hu] at h; cases h
      | error e' =>
        rw [hu] at h
        cases h
        exact ⟨rfl, data, rfl, hu⟩

/-- C6, as amended. For a provider whose `"repositories"` raw value is a JSON
value that is neither an array nor `null` (a string, say), `NewSatis` returns an
error and no Satis object. -/
theorem NewSatis_rejects_non_array (c : Provider) (layout : Nat) (v : Json)
    (hget : c.Get "repositories" = GoValue.rawMessagePtr (some (Bytes.text layout v)))
    (harray : ∀ elems, v ≠ Json.array elems) (hnull : v ≠ Json.null) :
    NewSatis (some c) = Except.ok
      (none, some (GoError.unmarshalTypeError v.kind "[]config.SatisRepository")) := by
  simp only [NewSatis, NewSatis.readRepositories, hget, GoValue.assertRawMessagePtr]
  cases v with
  | array elems => exact absurd rfl (harray elems)
  | null => exact absurd rfl hnull
  | bool b => rfl
  | number n => rfl
  | string x => rfl
  | object l => rfl

/-- C6 as amended, on a manifest whose `"repositories"` value is a string. -/
theorem NewSatis_rejects_non_array_witness :
    (Provider.ofDocument stringDocument).Get "repositories"
      = GoValue.rawMessagePtr (some (Bytes.text 0 (Json.string "none"))) ∧
    (∀ elems, Json.string "none" ≠ Json.array elems) ∧ Json.string "none" ≠ Json.null ∧
    NewSatis (some (Provider.ofDocument stringDocument)) = Except.ok
      (none, some (GoError.unmarshalTypeError "string" "[]config.SatisRepository")) :=
  ⟨rfl, fun _ h => Json.noConfusion h, fun h => Json.noConfusion h,
    NewSatis_rejects_non_array (Provider.ofDocument stringDocument) 0 (Json.string "none") rfl
      (fun _ h => Json.noConfusion h) (fun h => Json.noConfusion h)⟩

/-- C6, the claim as stated fails: `null` is a JSON value that is not an array,
and for a document whose `"repositories"` value is `null` `NewSatis` returns a
Satis object and no error. -/
theorem NewSatis_accepts_null :
    (Provider.ofDocument nullDocument).Get "repositories"
      = GoValue.rawMessagePtr (some (Bytes.text 0 Json.null)) ∧
    (∀ elems, Json.null ≠ Json.array elems) ∧
    (NewSatis (some (Provider.ofDocument nullDocument))).map
      (fun r => (r.1.isSome, r.2)) = Except.ok (true, none) ∧
    ¬ ∃ e, NewSatis (some (Provider.ofDocument nullDocument))
      = Except.ok (none, some e) := by
  refine ⟨rfl, fun _ h => (by cases h), rfl, ?_⟩
  rintro ⟨e, he⟩
  rw [NewSatis_of_parsed (Provider.ofDocument nullDocument)
    (Bytes.text 0 Json.null) [] rfl rfl] at he
  cases he

/-- C7. `NewSatis` with a nil provider returns the error
`"No configurations provider applied"` and no Satis object; it returns that
error only for the nil provider; and for a provider that is not nil, an error
it returns is the error of parsing the `"repositories"` value, returned without
a Satis object. -/
theorem NewSatis_nil_provider :
    NewSatis none
      = Except.ok (none, some (GoError.errorString "No configurations provider applied")) ∧
    (∀ (c : Option Provider) (x : Option Satis),
      NewSatis c = Except.ok (x, some (GoError.errorString "No configurations provider applied")) →
      c = none) ∧
    (∀ (c : Provider) (x : Option Satis) (e : GoError),
      NewSatis (some c) = Except.ok (x, some e) →
      x = none ∧ ∃ data, c.Get "repositories" = GoValue.rawMessagePtr (some data) ∧
        json.Unmarshal data = Except.error e) := by
  refine ⟨rfl, ?_, fun c x e h => NewSatis_some_error h⟩
  intro c x h
  cases c with
  | none => rfl
  | some c =>
    obtain ⟨_, data, _, hu⟩ := NewSatis_some_error h
    exact absurd (json.Unmarshal_error hu) (by decide)

/-- C7 on the nil provider and on a manifest whose `"repositories"` value is a string. -/
theorem NewSatis_nil_provider_witness :
    (NewSatis none
        = Except.ok (none, some (GoError.errorString "No configurations provider applied")) ∧
      (none : Option Provider) = none) ∧
    (NewSatis (some (Provider.ofDocument stringDocument)) = Except.ok
        (none, some (GoError.unmarshalTypeError "string" "[]config.SatisRepository")) ∧
      ∃ data, (Provider.ofDocument stringDocument).Get "repositories"
          = GoValue.rawMessagePtr (some data) ∧
        json.Unmarshal data
          = Except.error (GoError.unmarshalTypeError "string" "[]config.SatisRepository")) :=
  ⟨⟨rfl, NewSatis_nil_provider.2.1 none none rfl⟩, rfl,
    (NewSatis_nil_provider.2.2 (Provider.ofDocument stringDocument) none
      (GoError.unmarshalTypeError "string" "[]config.SatisRepository") rfl).2⟩

/-! ### Writing the file -/

theorem GoValue.encodes_iff (v : GoValue) :
    v.encodes = true ↔ ∃ b, v = GoValue.rawMessage b ∧ b.isMalformed = false := by
  cases v with
  | rawMessage b => cases b <;> simp [GoValue.encodes, Bytes.isMalformed]
  | nil => simp [GoValue.encodes]
  | rawMessagePtr p => simp [GoValue.encodes]
  | other t => simp [GoValue.encodes]

theorem marshalRawMessage_ok {b : Bytes} (h : b.isMalformed = false) :
    marshalRawMessage b = Except.ok b.jsonValue := by
  cases b with
  | nil => rfl
  | text l v => rfl
  | malformed n => cases h

theorem marshalRawMessage_error {b : Bytes} (h : b.isMalformed = true) :
    marshalRawMessage b = Except.error (GoError.marshalerError "json.RawMessage") := by
  cases b with
  | nil => cases h
  | text l v => cases h
  | malformed n => rfl

theorem mapM_marshalRawMessage_ok :
    ∀ (l : List (String × Bytes)), (∀ p ∈ l, p.2.isMalformed = false) →
      l.mapM (fun kv => (marshalRawMessage kv.2).map (fun v => (kv.1, v)))
        = Except.ok (l.map (fun kv => (kv.1, kv.2.jsonValue)))
  | [], _ => rfl
  | p :: t, h => by
      rw [List.mapM_cons, marshalRawMessage_ok (h p (List.mem_cons_self _ _)),
        mapM_marshalRawMessage_ok t (fun q hq => h q (List.mem_cons_of_mem _ hq))]
      rfl

theorem json.MarshalIndentDocument_ok (m : GoMap Bytes)
    (h : ∀ k b, m.lookup k = some b → b.isMalformed = false) :
    json.MarshalIndentDocument m = Except.ok (Bytes.text 0
      (Json.object (m.sortedEntries.map (fun kv => (kv.1, kv.2.jsonValue))))) := by
  unfold json.MarshalIndentDocument
  rw [mapM_marshalRawMessage_ok _ (fun p hp => h p.1 p.2 ((m.mem_sortedEntries p.1 p.2).1 hp))]
  rfl

/-- Reading a key back from the encoding of a document gives the value of the
raw message the document held under that key. -/
theorem member_MarshalIndentDocument (m : GoMap Bytes) (key : String) :
    (Bytes.text 0 (Json.object (m.sortedEntries.map (fun kv => (kv.1, kv.2.jsonValue))))).member key
      = (m.lookup key).map Bytes.jsonValue := by
  unfold Bytes.member
  simp only
  rw [List.filter_map, List.getLast?_map, Option.map_map]
  have hcomp : ((fun p : String × Json => decide (p.1 = key)) ∘
      (fun kv : String × Bytes => (kv.1, kv.2.jsonValue))) = (fun p => decide (p.1 = key)) := rfl
  rw [hcomp, ← List.getLast?_map]
  have hsnd : (Prod.snd ∘ fun kv : String × Bytes => (kv.1, kv.2.jsonValue))
      = Bytes.jsonValue ∘ Prod.snd := rfl
  rw [hsnd, ← List.map_map]
  have := RangeOrder.ascending.filter_key m key
  change (m.sortedEntries.filter (fun p => decide (p.1 = key))).map Prod.snd = _ at this
  rw [this]
  cases Finmap.lookup key m <;> rfl

theorem Satis.WriteFile_eq (write : WriteFileOp) (ρ₁ ρ₂ : RangeOrder) (s : Satis)
    (filename : String) (perm : Nat) (fs : FileSystem) :
    s.WriteFile write ρ₁ ρ₂ filename perm fs =
      match Satis.WriteFile.encode ρ₁ ρ₂ s with
      | .error p => (Except.error p, fs)
      | .ok (.error err) => (Except.ok (some err), fs)
      | .ok (.ok b) => (Except.ok (write filename b perm fs).1, (write filename b perm fs).2) := rfl

theorem Satis.WriteFile.encode_of_document {ρ₁ ρ₂ : RangeOrder} {s : Satis} {m : GoMap Bytes}
    (h : Satis.WriteFile.document ρ₁ ρ₂ s = Except.ok (Except.ok m)) :
    Satis.WriteFile.encode ρ₁ ρ₂ s = Except.ok (json.MarshalIndentDocument m) := by
  unfold Satis.WriteFile.encode
  rw [h]

theorem Satis.WriteFile.encode_of_document_error {ρ₁ ρ₂ : RangeOrder} {s : Satis} {e : GoError}
    (h : Satis.WriteFile.document ρ₁ ρ₂ s = Except.ok (Except.error e)) :
    Satis.WriteFile.encode ρ₁ ρ₂ s = Except.ok (Except.error e) := by
  unfold Satis.WriteFile.encode
  rw [h]

theorem Satis.WriteFile.encode_of_document_panic {ρ₁ ρ₂ : RangeOrder} {s : Satis} {p : Panic}
    (h : Satis.WriteFile.document ρ₁ ρ₂ s = Except.error p) :
    Satis.WriteFile.encode ρ₁ ρ₂ s = Except.error p := by
  unfold Satis.WriteFile.encode
  rw [h]

theorem NewSatis.mem_URLs_deduplicate (ρ : RangeOrder) (c : Provider) (L : List SatisRepository)
    (u : String) :
    u ∈ (Satis.GetRepositoriesAsSlice ρ
        { config := c, repositories := NewSatis.deduplicate L }).map SatisRepository.URL
      ↔ u ∈ L.map SatisRepository.URL := by
  constructor
  · intro h
    obtain ⟨r, hr, hru⟩ := List.mem_map.1 h
    obtain ⟨k, hk⟩ := (Satis.mem_GetRepositoriesAsSlice ρ _ r).1 hr
    rw [NewSatis.lookup_deduplicate] at hk
    exact List.mem_map.2 ⟨r, (lastWithURL_mem hk).1, hru⟩
  · intro h
    obtain ⟨r, hr⟩ := lastWithURL_isSome h
    refine List.mem_map.2 ⟨r, ?_, (lastWithURL_mem hr).2⟩
    rw [Satis.mem_GetRepositoriesAsSlice]
    exact ⟨u, (NewSatis.lookup_deduplicate L u).trans hr⟩

/-- C8. Load-then-save round trip. For a provider whose `"repositories"` value
parses to the sequence `L` and whose content map holds encodable raw values,
`NewSatis` followed at once by `WriteFile` hands bytes `b` to the file write,
and the `"repositories"` value of the document `b` parses to a sequence with
the same set of URLs as `L`. -/
theorem load_then_save_keeps_URL_set (write : WriteFileOp) (ρ₁ ρ₂ : RangeOrder) (c : Provider)
    (data : Bytes) (L : List SatisRepository) (filename : String) (perm : Nat) (fs : FileSystem)
    (hget : c.Get "repositories" = GoValue.rawMessagePtr (some data))
    (hparse : json.Unmarshal data = Except.ok L)
    (hcontent : ∀ k v, c.GetContentMap.lookup k = some v → v.encodes = true) :
    ∃ s b L', NewSatis (some c) = Except.ok (some s, none) ∧
      Satis.WriteFile.encode ρ₁ ρ₂ s = Except.ok (Except.ok b) ∧
      s.WriteFile write ρ₁ ρ₂ filename perm fs
        = (Except.ok (write filename b perm fs).1, (write filename b perm fs).2) ∧
      (b.member "repositories").map decodeRepositories = some (Except.ok L') ∧
      ∀ u, u ∈ L'.map SatisRepository.URL ↔ u ∈ L.map SatisRepository.URL := by
  have hraw : ∀ k v, c.GetContentMap.lookup k = some v → v.isRawMessage = true := by
    intro k v hkv
    obtain ⟨b, rfl, _⟩ := (GoValue.encodes_iff v).1 (hcontent k v hkv)
    rfl
  obtain ⟨m, _, hlook, hdoc⟩ := Satis.WriteFile.document_of_raw ρ₁ ρ₂
    { config := c, repositories := NewSatis.deduplicate L } hraw
  have hwell : ∀ k b, Finmap.lookup k (m.insert "repositories" (Bytes.text 0 (Json.array
      ((Satis.GetRepositoriesAsSlice ρ₂
        { config := c, repositories := NewSatis.deduplicate L }).map SatisRepository.toJson))))
      = some b → b.isMalformed = false := by
    intro k b hkb
    by_cases hk : k = "repositories"
    · subst hk
      rw [Finmap.lookup_insert] at hkb
      cases hkb
      rfl
    · rw [Finmap.lookup_insert_of_ne _ hk] at hkb
      have h₁ := hlook k
      rw [hkb] at h₁
      obtain ⟨b', hb', hmal⟩ := (GoValue.encodes_iff _).1 (hcontent k _ h₁.symm)
      cases hb'
      exact hmal
  have henc := (Satis.WriteFile.encode_of_document hdoc).trans
    (congrArg Except.ok (json.MarshalIndentDocument_ok _ hwell))
  refine ⟨_, _, _, NewSatis_of_parsed c data L hget hparse, henc, ?_, ?_,
    NewSatis.mem_URLs_deduplicate ρ₂ c L⟩
  · rw [Satis.WriteFile_eq, henc]
  · rw [member_MarshalIndentDocument, Finmap.lookup_insert]
    exact congrArg some (mapM_decode_toJson _)

/-- Every value of the sample content map is an encodable raw message. -/
theorem sampleDocument_content_encodes :
    ∀ k v, (Provider.ofDocument sampleDocument).GetContentMap.lookup k = some v →
      v.encodes = true :=
  GoMap.forall_lookup_of_sortedEntries _ (fun _ (v : GoValue) => v.encodes = true) (by decide)

/-- C8 on the sample manifest, with a write that succeeds. -/
theorem load_then_save_keeps_URL_set_witness :
    (Provider.ofDocument sampleDocument).Get "repositories"
      = GoValue.rawMessagePtr (List.lookup "repositories" sampleDocument) ∧
    (List.lookup "repositories" sampleDocument).map json.Unmarshal
      = some (Except.ok sampleRepositories) ∧
    (∀ k v, (Provider.ofDocument sampleDocument).GetContentMap.lookup k = some v →
      v.encodes = true) ∧
    ∃ s b L', NewSatis (some (Provider.ofDocument sampleDocument)) = Except.ok (some s, none) ∧
      Satis.WriteFile.encode RangeOrder.ascending RangeOrder.descending s
        = Except.ok (Except.ok b) ∧
      s.WriteFile successfulWrite RangeOrder.ascending RangeOrder.descending "satis.json" 420
          noFiles
        = (Except.ok (successfulWrite "satis.json" b 420 noFiles).1,
            (successfulWrite "satis.json" b 420 noFiles).2) ∧
      (b.member "repositories").map decodeRepositories = some (Except.ok L') ∧
      ∀ u, u ∈ L'.map SatisRepository.URL ↔ u ∈ sampleRepositories.map SatisRepository.URL :=
  ⟨rfl, by decide, sampleDocument_content_encodes,
    load_then_save_keeps_URL_set successfulWrite RangeOrder.ascending RangeOrder.descending
      (Provider.ofDocument sampleDocument)
      (Bytes.text 2 (Json.array
        [Json.object [("type", Json.string "svn"), ("url", Json.string "u1")],
         Json.object [("type", Json.string "git"), ("url", Json.string "u2")],
         Json.object [("type", Json.string "hg"), ("url", Json.string "u1")]]))
      sampleRepositories "satis.json" 420 noFiles rfl (by decide)
      sampleDocument_content_encodes⟩

/-- C9. When one of the two encodings of `WriteFile` fails, that of the
repository list or that of the merged document, `WriteFile` returns its error
and the file system is as before, whatever the write would have done. The file
system changes only when both encodings succeeded, by the write of the encoded
bytes. -/
theorem WriteFile_failed_encoding_writes_nothing (write : WriteFileOp) (ρ₁ ρ₂ : RangeOrder)
    (s : Satis) (filename : String) (perm : Nat) (fs : FileSystem) :
    (∀ e, (Satis.WriteFile.document ρ₁ ρ₂ s = Except.ok (Except.error e) ∨
        ∃ m, Satis.WriteFile.document ρ₁ ρ₂ s = Except.ok (Except.ok m) ∧
          json.MarshalIndentDocument m = Except.error e) →
      s.WriteFile write ρ₁ ρ₂ filename perm fs = (Except.ok (some e), fs)) ∧
    ((s.WriteFile write ρ₁ ρ₂ filename perm fs).2 ≠ fs →
      ∃ m b, Satis.WriteFile.document ρ₁ ρ₂ s = Except.ok (Except.ok m) ∧
        json.MarshalIndentDocument m = Except.ok b ∧
        s.WriteFile write ρ₁ ρ₂ filename perm fs
          = (Except.ok (write filename b perm fs).1, (write filename b perm fs).2)) := by
  constructor
  · rintro e (h | ⟨m, h, hm⟩)
    · rw [Satis.WriteFile_eq, Satis.WriteFile.encode_of_document_error h]
    · rw [Satis.WriteFile_eq, Satis.WriteFile.encode_of_document h, hm]
  · intro hne
    rw [Satis.WriteFile_eq] at hne ⊢
    cases hd : Satis.WriteFile.document ρ₁ ρ₂ s with
    | error p =>
      rw [Satis.WriteFile.encode_of_document_panic hd] at hne
      exact absurd rfl hne
    | ok d =>
      cases d with
      | error err =>
        rw [Satis.WriteFile.encode_of_document_error hd] at hne
        exact absurd rfl hne
      | ok m =>
        rw [Satis.WriteFile.encode_of_document hd] at hne ⊢
        cases hm : json.MarshalIndentDocument m with
        | error err => rw [hm] at hne; exact absurd rfl hne
        | ok b => exact ⟨m, b, rfl, hm, rfl⟩

/-- C9 on a document with a value that is not JSON, and on the sample manifest. -/
theorem WriteFile_failed_encoding_writes_nothing_witness :
    ((∃ m, Satis.WriteFile.document RangeOrder.ascending RangeOrder.ascending
          { config := Provider.ofDocument brokenDocument, repositories := ∅ }
            = Except.ok (Except.ok m) ∧
        json.MarshalIndentDocument m
          = Except.error (GoError.marshalerError "json.RawMessage")) ∧
      Satis.WriteFile successfulWrite RangeOrder.ascending RangeOrder.ascending
          { config := Provider.ofDocument brokenDocument, repositories := ∅ }
          "satis.json" 420 noFiles
        = (Except.ok (some (GoError.marshalerError "json.RawMessage")), noFiles)) ∧
    ((sampleSatis.WriteFile successfulWrite RangeOrder.ascending RangeOrder.ascending
          "satis.json" 420 noFiles).2 ≠ noFiles ∧
      ∃ m b, Satis.WriteFile.document RangeOrder.ascending RangeOrder.ascending sampleSatis
          = Except.ok (Except.ok m) ∧
        json.MarshalIndentDocument m = Except.ok b ∧
        sampleSatis.WriteFile successfulWrite RangeOrder.ascending RangeOrder.ascending
            "satis.json" 420 noFiles
          = (Except.ok (successfulWrite "satis.json" b 420 noFiles).1,
              (successfulWrite "satis.json" b 420 noFiles).2)) := by
  have hbroken : ∃ m, Satis.WriteFile.document RangeOrder.ascending RangeOrder.ascending
        { config := Provider.ofDocument brokenDocument, repositories := ∅ }
          = Except.ok (Except.ok m) ∧
      json.MarshalIndentDocument m
        = Except.error (GoError.marshalerError "json.RawMessage") :=
    ⟨((∅ : GoMap Bytes).insert "broken" (Bytes.malformed 7)).insert "repositories"
      (Bytes.text 0 (Json.array [])), by decide, by decide⟩
  have hchanged : (sampleSatis.WriteFile successfulWrite RangeOrder.ascending RangeOrder.ascending
      "satis.json" 420 noFiles).2 ≠ noFiles :=
    fun h => absurd (congrFun h "satis.json") (by decide)
  exact ⟨⟨hbroken, (WriteFile_failed_encoding_writes_nothing successfulWrite RangeOrder.ascending
      RangeOrder.ascending { config := Provider.ofDocument brokenDocument, repositories := ∅ }
      "satis.json" 420 noFiles).1 _ (Or.inr hbroken)⟩,
    hchanged, (WriteFile_failed_encoding_writes_nothing successfulWrite RangeOrder.ascending
      RangeOrder.ascending sampleSatis "satis.json" 420 noFiles).2 hchanged⟩

/-- C10. After `AddRepository(u)` the registry maps `u` to the entry of type
`"git"` with URL `u`, whatever it held for `u` before; it holds for every other
URL what it held before; and the provider of the Satis object is the same. -/
theorem AddRepository_frame (s : Satis) (u : String) :
    (s.AddRepository u).repositories.lookup u = some ⟨"git", u⟩ ∧
    (∀ k, k ≠ u → (s.AddRepository u).repositories.lookup k = s.repositories.lookup k) ∧
    (s.AddRepository u).config = s.config := by
  refine ⟨?_, fun k hk => ?_, rfl⟩
  · rw [Satis.lookup_AddRepository, if_pos rfl]
  · rw [Satis.lookup_AddRepository, if_neg hk]

/-- C10 on the registry of the sample manifest: the loaded `hg` entry for `u1`
becomes a `git` entry, the entry for `u2` stays. -/
theorem AddRepository_frame_witness :
    sampleSatis.repositories.lookup "u1" = some ⟨"hg", "u1"⟩ ∧
    (sampleSatis.AddRepository "u1").repositories.lookup "u1" = some ⟨"git", "u1"⟩ ∧
    "u2" ≠ "u1" ∧
    (sampleSatis.AddRepository "u1").repositories.lookup "u2"
      = sampleSatis.repositories.lookup "u2" :=
  ⟨by decide, (AddRepository_frame sampleSatis "u1").1, by decide,
    (AddRepository_frame sampleSatis "u1").2.1 "u2" (by decide)⟩

/-! ### Laws of `AddRepository` and `AddRepositories` -/

/-- Two Satis objects with the same provider and the same entry under every
key are equal. -/
theorem Satis.ext_lookup {s t : Satis} (hc : s.config = t.config)
    (hr : ∀ k, s.repositories.lookup k = t.repositories.lookup k) : s = t := by
  cases s with
  | mk sc sr =>
    cases t with
    | mk tc tr =>
      have h₁ : sc = tc := hc
      have h₂ : sr = tr := Finmap.ext_lookup hr
      rw [h₁, h₂]

theorem Satis.Coherent.AddRepository {s : Satis} (h : s.Coherent) (u : String) :
    (s.AddRepository u).Coherent :=
  h.foldl_AddRepository [u]

/-- C11. `AddRepository` is idempotent: calling it twice with the same URL
gives the registry that one call gives, and that registry holds one entry for
the URL, of type `"git"`; for a registry keyed by URL the slice has exactly one
entry with that URL. A registry loaded from a manifest with the one repository
`u1` of type `git` is unchanged by `AddRepository("u1")` and has one entry for
`u1`. -/
theorem AddRepository_idempotent (ρ : RangeOrder) (s : Satis) (u : String) :
    (s.AddRepository u).AddRepository u = s.AddRepository u ∧
    (s.AddRepository u).repositories.lookup u = some ⟨"git", u⟩ ∧
    (s.Coherent →
      ((s.AddRepository u).GetRepositoriesAsSlice ρ).filter (fun r => decide (r.URL = u))
        = [⟨"git", u⟩]) ∧
    (∀ (c : Provider) (data : Bytes),
      c.Get "repositories" = GoValue.rawMessagePtr (some data) →
      json.Unmarshal data = Except.ok [⟨"git", "u1"⟩] →
      ∃ s₁, NewSatis (some c) = Except.ok (some s₁, none) ∧
        s₁.AddRepository "u1" = s₁ ∧
        ((s₁.AddRepository "u1").GetRepositoriesAsSlice ρ).filter
          (fun r => decide (r.URL = "u1")) = [⟨"git", "u1"⟩]) := by
  refine ⟨?_, ?_, ?_, ?_⟩
  · refine Satis.ext_lookup ?_ ?_
    · rfl
    intro k
    rw [Satis.lookup_AddRepository, Satis.lookup_AddRepository]
    by_cases hk : k = u
    · rw [if_pos hk, if_pos hk]
    · rw [if_neg hk, if_neg hk]
  · rw [Satis.lookup_AddRepository, if_pos rfl]
  · intro h
    rw [(h.AddRepository u).filter_URL ρ u, Satis.lookup_AddRepository, if_pos rfl]
    rfl
  · intro c data hget hparse
    have hco := NewSatis.deduplicate_coherent c [⟨"git", "u1"⟩]
    refine ⟨_, NewSatis_of_parsed c data _ hget hparse, ?_, ?_⟩
    · refine Satis.ext_lookup ?_ ?_
      · rfl
      intro k
      rw [Satis.lookup_AddRepository]
      by_cases hk : k = "u1"
      · rw [if_pos hk, hk]
        exact (Finmap.lookup_insert (∅ : GoMap SatisRepository)).symm
      · rw [if_neg hk]
    · rw [(hco.AddRepository "u1").filter_URL ρ "u1", Satis.lookup_AddRepository, if_pos rfl]
      rfl

/-- C11 on the registry of the sample manifest, and on the manifest with the
one repository `u1`. -/
theorem AddRepository_idempotent_witness :
    sampleSatis.Coherent ∧
    ((sampleSatis.AddRepository "u1").GetRepositoriesAsSlice RangeOrder.ascending).filter
      (fun r => decide (r.URL = "u1")) = [⟨"git", "u1"⟩] ∧
    (Provider.ofDocument singleDocument).Get "repositories"
      = GoValue.rawMessagePtr (List.lookup "repositories" singleDocument) ∧
    (List.lookup "repositories" singleDocument).map json.Unmarshal
      = some (Except.ok [⟨"git", "u1"⟩]) ∧
    ∃ s₁, NewSatis (some (Provider.ofDocument singleDocument)) = Except.ok (some s₁, none) ∧
      s₁.AddRepository "u1" = s₁ ∧
      ((s₁.AddRepository "u1").GetRepositoriesAsSlice RangeOrder.ascending).filter
        (fun r => decide (r.URL = "u1")) = [⟨"git", "u1"⟩] :=
  ⟨sampleSatis_coherent,
    (AddRepository_idempotent RangeOrder.ascending sampleSatis "u1").2.2.1 sampleSatis_coherent,
    rfl, by decide,
    (AddRepository_idempotent RangeOrder.ascending sampleSatis "u1").2.2.2
      (Provider.ofDocument singleDocument)
      (Bytes.text 0 (Json.array
        [Json.object [("type", Json.string "git"), ("url", Json.string "u1")]]))
      rfl (by decide)⟩

theorem Satis.singleCalls_eq_foldl (us : List String) (s : Satis) :
    s.singleCalls us = us.foldl Satis.AddRepository s := by
  induction us generalizing s with
  | nil => rfl
  | cons u t ih => exact ih (s.AddRepository u)

/-- C12. `AddRepositories(u₁, ..., uₙ)` gives the registry that the single
calls `AddRepository(u₁)`; ...; `AddRepository(uₙ)` give in this order; with no
URL it leaves the Satis object as it is; and `AddRepositories` of `xs ++ ys` is
`AddRepositories` of `xs` followed by `AddRepositories` of `ys`. -/
theorem AddRepositories_is_repeated_AddRepository (s : Satis) (us xs ys : List String)
    (a b : String) :
    s.AddRepositories us = s.singleCalls us ∧
    s.AddRepositories [] = s ∧
    s.AddRepositories [a] = s.AddRepository a ∧
    s.AddRepositories [a, b] = (s.AddRepository a).AddRepository b ∧
    s.AddRepositories (a :: us) = (s.AddRepository a).AddRepositories us ∧
    s.AddRepositories (us ++ [a]) = (s.AddRepositories us).AddRepository a ∧
    s.AddRepositories (xs ++ ys) = (s.AddRepositories xs).AddRepositories ys := by
  refine ⟨(Satis.singleCalls_eq_foldl us s).symm, rfl, rfl, rfl, rfl, ?_, ?_⟩
  · unfold Satis.AddRepositories
    rw [List.foldl_append]
    rfl
  · unfold Satis.AddRepositories
    rw [List.foldl_append]

/-! ### The slice of the registry -/

theorem RangeOrder.keys_eq {V : Type} (ρ : RangeOrder) (m : GoMap V) :
    m.keys = ((ρ.order m).map Prod.fst).toFinset := by
  ext a
  rw [Finmap.mem_keys, Finmap.mem_iff, List.mem_toFinset, List.mem_map]
  constructor
  · rintro ⟨b, hb⟩
    exact ⟨(a, b), (ρ.mem_iff m a b).2 hb, rfl⟩
  · rintro ⟨⟨a', b⟩, hp, rfl⟩
    exact ⟨b, (ρ.mem_iff m a' b).1 hp⟩

theorem RangeOrder.length_order {V : Type} (ρ : RangeOrder) (m : GoMap V) :
    (ρ.order m).length = m.keys.card := by
  rw [ρ.keys_eq m, List.toFinset_card_of_nodup (ρ.nodup m), List.length_map]

/-- Two range orders visit the same entries: one is a permutation of the
other. -/
theorem RangeOrder.perm {V : Type} (ρ ρ' : RangeOrder) (m : GoMap V) :
    (ρ.order m).Perm (ρ'.order m) := by
  rw [List.perm_ext_iff_of_nodup (List.Nodup.of_map _ (ρ.nodup m))
    (List.Nodup.of_map _ (ρ'.nodup m))]
  rintro ⟨k, v⟩
  rw [ρ.mem_iff, ρ'.mem_iff]

theorem Satis.GetRepositoriesAsSlice_perm (ρ ρ' : RangeOrder) (s : Satis) :
    (s.GetRepositoriesAsSlice ρ).Perm (s.GetRepositoriesAsSlice ρ') := by
  rw [Satis.GetRepositoriesAsSlice_eq, Satis.GetRepositoriesAsSlice_eq]
  exact (ρ.perm ρ' s.repositories).map _

/-- C13. For a registry keyed by URL, `GetRepositoriesAsSlice` returns each
entry of the registry once and nothing else: the slice is as long as the
registry has URLs, the URLs of its elements are pairwise distinct, and an entry
is in the slice exactly when the registry holds it for its URL. Another order
of the loop gives a permutation of the slice. -/
theorem GetRepositoriesAsSlice_lists_each_entry_once (ρ : RangeOrder) (s : Satis)
    (h : s.Coherent) :
    (s.GetRepositoriesAsSlice ρ).length = s.repositories.keys.card ∧
    ((s.GetRepositoriesAsSlice ρ).map SatisRepository.URL).Nodup ∧
    (∀ r, r ∈ s.GetRepositoriesAsSlice ρ ↔ s.repositories.lookup r.URL = some r) ∧
    (∀ r, r ∈ s.GetRepositoriesAsSlice ρ → (s.GetRepositoriesAsSlice ρ).count r = 1) ∧
    (∀ ρ' : RangeOrder, (s.GetRepositoriesAsSlice ρ).Perm (s.GetRepositoriesAsSlice ρ')) := by
  have hnd : ((s.GetRepositoriesAsSlice ρ).map SatisRepository.URL).Nodup := by
    rw [h.map_URL ρ]
    exact ρ.nodup _
  refine ⟨?_, hnd, ?_, ?_, fun ρ' => Satis.GetRepositoriesAsSlice_perm ρ ρ' s⟩
  · rw [Satis.GetRepositoriesAsSlice_eq, List.length_map, ρ.length_order]
  · intro r
    rw [Satis.mem_GetRepositoriesAsSlice]
    constructor
    · rintro ⟨k, hk⟩
      rw [h k r hk]
      exact hk
    · intro hr
      exact ⟨r.URL, hr⟩
  · intro r hr
    exact List.count_eq_one_of_mem (List.Nodup.of_map _ hnd) hr

/-- C13 on the registry of the sample manifest. -/
theorem GetRepositoriesAsSlice_lists_each_entry_once_witness :
    sampleSatis.Coherent ∧
    (sampleSatis.GetRepositoriesAsSlice RangeOrder.descending).length
      = sampleSatis.repositories.keys.card ∧
    ((sampleSatis.GetRepositoriesAsSlice RangeOrder.descending).map SatisRepository.URL).Nodup ∧
    (∀ r, r ∈ sampleSatis.GetRepositoriesAsSlice RangeOrder.descending ↔
      sampleSatis.repositories.lookup r.URL = some r) ∧
    (∀ r, r ∈ sampleSatis.GetRepositoriesAsSlice RangeOrder.descending →
      (sampleSatis.GetRepositoriesAsSlice RangeOrder.descending).count r = 1) ∧
    (∀ ρ' : RangeOrder, (sampleSatis.GetRepositoriesAsSlice RangeOrder.descending).Perm
      (sampleSatis.GetRepositoriesAsSlice ρ')) :=
  ⟨sampleSatis_coherent,
    GetRepositoriesAsSlice_lists_each_entry_once RangeOrder.descending sampleSatis
      sampleSatis_coherent⟩

/-! ### What the calls change -/

theorem Satis.WriteFile.document_repositories {ρ₁ ρ₂ : RangeOrder} {s : Satis} {m : GoMap Bytes}
    (h : Satis.WriteFile.document ρ₁ ρ₂ s = Except.ok (Except.ok m)) :
    m.lookup "repositories" = some (Bytes.text 0
      (Json.array ((s.GetRepositoriesAsSlice ρ₂).map SatisRepository.toJson))) := by
  unfold Satis.WriteFile.document at h
  cases hp : Satis.WriteFile.contentPointers ρ₁ s.config.GetContentMap with
  | error p => rw [hp] at h; cases h
  | ok m₀ =>
    rw [hp] at h
    simp only [json.MarshalIndentRepositories] at h
    cases h
    exact Finmap.lookup_insert _

/-- C14. Only `AddRepository` and `AddRepositories` change a Satis object:
after a call of `GetRepositoriesAsSlice` or of `WriteFile`, whatever the write
does and whether or not the encodings succeed, the registry and the provider
are the ones before the call. So of two `WriteFile` calls in a row the second
encodes the registry the first encoded: the two `"repositories"` values decode
to the same entries, up to the order of the loop. -/
theorem readers_leave_Satis_unchanged (s : Satis) (fs : FileSystem) :
    (∀ call : Satis.Call, call.isAdd = false →
      (call.after (s, fs)).1 = s ∧
      (call.after (s, fs)).1.repositories = s.repositories ∧
      (call.after (s, fs)).1.config = s.config) ∧
    (∀ call : Satis.Call, (call.after (s, fs)).1 ≠ s → call.isAdd = true) ∧
    (∀ (write write' : WriteFileOp) (ρ₁ ρ₂ ρ₁' ρ₂' : RangeOrder) (filename filename' : String)
        (perm perm' : Nat) (m m' : GoMap Bytes),
      Satis.WriteFile.document ρ₁ ρ₂ s = Except.ok (Except.ok m) →
      Satis.WriteFile.document ρ₁' ρ₂'
          ((Satis.Call.WriteFile write ρ₁ ρ₂ filename perm).after (s, fs)).1
        = Except.ok (Except.ok m') →
      ((Satis.Call.WriteFile write' ρ₁' ρ₂' filename' perm').after
          ((Satis.Call.WriteFile write ρ₁ ρ₂ filename perm).after (s, fs))).1 = s ∧
      ∃ l l', (m.lookup "repositories").map json.Unmarshal = some (Except.ok l) ∧
        (m'.lookup "repositories").map json.Unmarshal = some (Except.ok l') ∧
        l.Perm l' ∧ ∀ r, r ∈ l ↔ r ∈ l') := by
  refine ⟨?_, ?_, ?_⟩
  · intro call hcall
    cases call with
    | AddRepository u => cases hcall
    | AddRepositories u => cases hcall
    | GetRepositoriesAsSlice ρ => exact ⟨rfl, rfl, rfl⟩
    | WriteFile write ρ₁ ρ₂ filename perm => exact ⟨rfl, rfl, rfl⟩
  · intro call hcall
    cases call with
    | AddRepository u => rfl
    | AddRepositories u => rfl
    | GetRepositoriesAsSlice ρ => exact absurd rfl hcall
    | WriteFile write ρ₁ ρ₂ filename perm => exact absurd rfl hcall
  · intro write write' ρ₁ ρ₂ ρ₁' ρ₂' filename filename' perm perm' m m' hm hm'
    have hs : ((Satis.Call.WriteFile write ρ₁ ρ₂ filename perm).after (s, fs)).1 = s := rfl
    rw [hs] at hm'
    refine ⟨rfl, s.GetRepositoriesAsSlice ρ₂, s.GetRepositoriesAsSlice ρ₂', ?_, ?_,
      Satis.GetRepositoriesAsSlice_perm ρ₂ ρ₂' s,
      fun r => (Satis.GetRepositoriesAsSlice_perm ρ₂ ρ₂' s).mem_iff⟩
    · rw [Satis.WriteFile.document_repositories hm]
      exact congrArg some (json.Unmarshal_MarshalIndentRepositories _ 0)
    · rw [Satis.WriteFile.document_repositories hm']
      exact congrArg some (json.Unmarshal_MarshalIndentRepositories _ 0)

/-- C14 on the sample manifest: a `GetRepositoriesAsSlice` call, and two
`WriteFile` calls in a row with different orders of the loops. -/
theorem readers_leave_Satis_unchanged_witness :
    ((Satis.Call.GetRepositoriesAsSlice RangeOrder.ascending).isAdd = false ∧
      ((Satis.Call.GetRepositoriesAsSlice RangeOrder.ascending).after (sampleSatis, noFiles)).1
        = sampleSatis) ∧
    (∃ m m', Satis.WriteFile.document RangeOrder.ascending RangeOrder.ascending sampleSatis
          = Except.ok (Except.ok m) ∧
        Satis.WriteFile.document RangeOrder.descending RangeOrder.descending
          ((Satis.Call.WriteFile successfulWrite RangeOrder.ascending RangeOrder.ascending
            "satis.json" 420).after (sampleSatis, noFiles)).1 = Except.ok (Except.ok m') ∧
        ∃ l l', (m.lookup "repositories").map json.Unmarshal = some (Except.ok l) ∧
          (m'.lookup "repositories").map json.Unmarshal = some (Except.ok l') ∧
          l.Perm l' ∧ ∀ r, r ∈ l ↔ r ∈ l') := by
  refine ⟨⟨rfl, ((readers_leave_Satis_unchanged sampleSatis noFiles).1
    (Satis.Call.GetRepositoriesAsSlice RangeOrder.ascending) rfl).1⟩, ?_⟩
  obtain ⟨_, _, _, hm⟩ := Satis.WriteFile.document_of_raw RangeOrder.ascending
    RangeOrder.ascending sampleSatis sampleSatis_content_raw
  obtain ⟨_, _, _, hm'⟩ := Satis.WriteFile.document_of_raw RangeOrder.descending
    RangeOrder.descending sampleSatis sampleSatis_content_raw
  exact ⟨_, _, hm, hm', ((readers_leave_Satis_unchanged sampleSatis noFiles).2.2
    successfulWrite successfulWrite RangeOrder.ascending RangeOrder.ascending
    RangeOrder.descending RangeOrder.descending "satis.json" "satis.json" 420 420 _ _
    hm hm').2⟩

/-! ### Invariants of the reachable registries -/

/-- A Satis object that `NewSatis` returns holds the map built from the list of
repositories it read. -/
theorem NewSatis_ok_inv {c : Option Provider} {s : Satis} {e : Option GoError}
    (h : NewSatis c = Except.ok (some s, e)) :
    ∃ (p : Provider) (L : List SatisRepository),
      c = some p ∧ s = { config := p, repositories := NewSatis.deduplicate L } ∧ e = none := by
  cases c with
  | none => cases h
  | some p =>
    simp only [NewSatis] at h
    cases hr : NewSatis.readRepositories p with
    | error q => rw [hr] at h; cases h
    | ok res =>
      cases res with
      | error err => rw [hr] at h; cases h
      | ok L =>
        rw [hr] at h
        cases h
        exact ⟨p, L, rfl, rfl, rfl⟩

theorem Satis.Coherent.AddRepositories {s : Satis} (h : s.Coherent) (us : List String) :
    (s.AddRepositories us).Coherent :=
  h.foldl_AddRepository us

/-- C15. Key/URL coherence. In every registry that is reached from a
successful `NewSatis` by `AddRepository` and `AddRepositories` calls, the entry
stored under a key has that key as its URL. -/
theorem reachable_registry_keyed_by_URL (s : Satis) (h : s.Reachable) :
    ∀ k r, s.repositories.lookup k = some r → r.URL = k := by
  induction h with
  | newSatis c s hs =>
    obtain ⟨p, L, _, rfl, _⟩ := NewSatis_ok_inv hs
    exact NewSatis.deduplicate_coherent p L
  | addRepository s u _ ih => exact Satis.Coherent.AddRepository ih u
  | addRepositories s us _ ih => exact Satis.Coherent.AddRepositories ih us

theorem sampleSatis_reachable : sampleSatis.Reachable :=
  Satis.Reachable.newSatis (some (Provider.ofDocument sampleDocument)) sampleSatis
    (NewSatis_of_parsed _ _ sampleRepositories rfl (by decide))

/-- C15 on the registry of the sample manifest after an `AddRepository` and an
`AddRepositories` call. -/
theorem reachable_registry_keyed_by_URL_witness :
    ((sampleSatis.AddRepository "u3").AddRepositories [ "u1", "u4" ]).Reachable ∧
    ∀ k r, ((sampleSatis.AddRepository "u3").AddRepositories [ "u1", "u4" ]).repositories.lookup k
      = some r → r.URL = k :=
  ⟨Satis.Reachable.addRepositories _ _ (Satis.Reachable.addRepository _ _ sampleSatis_reachable),
    reachable_registry_keyed_by_URL _
      (Satis.Reachable.addRepositories _ _
        (Satis.Reachable.addRepository _ _ sampleSatis_reachable))⟩

/-! ### The URLs after `AddRepositories` -/

theorem Satis.lookup_AddRepositories (s : Satis) (us : List String) (k : String) :
    (s.AddRepositories us).repositories.lookup k =
      if k ∈ us then some ⟨"git", k⟩ else s.repositories.lookup k :=
  Satis.lookup_foldl_AddRepository us s k

theorem Satis.keys_AddRepositories (s : Satis) (us : List String) :
    (s.AddRepositories us).repositories.keys = s.repositories.keys ∪ us.toFinset := by
  ext k
  rw [Finset.mem_union, List.mem_toFinset, Finmap.mem_keys, Finmap.mem_keys,
    ← Finmap.lookup_isSome, ← Finmap.lookup_isSome, Satis.lookup_AddRepositories]
  by_cases hk : k ∈ us
  · rw [if_pos hk]
    exact ⟨fun _ => Or.inr hk, fun _ => rfl⟩
  · rw [if_neg hk]
    exact ⟨fun h => Or.inl h, fun h => h.resolve_right hk⟩

/-- C16. The URLs of the registry after `AddRepositories(us...)` are the URLs it
had and the elements of `us`: none is removed, the number of entries does not
go down and grows by the number of distinct elements of `us` that were not
URLs of the registry; and the entry of every URL that is not in `us` is the one
before the call. -/
theorem AddRepositories_URL_set (ρ : RangeOrder) (s : Satis) (us : List String) :
    (s.AddRepositories us).repositories.keys = s.repositories.keys ∪ us.toFinset ∧
    s.repositories.keys ⊆ (s.AddRepositories us).repositories.keys ∧
    s.repositories.keys.card ≤ (s.AddRepositories us).repositories.keys.card ∧
    (s.AddRepositories us).repositories.keys.card
      = s.repositories.keys.card + (us.toFinset \ s.repositories.keys).card ∧
    ((s.AddRepositories us).GetRepositoriesAsSlice ρ).length
      = (s.GetRepositoriesAsSlice ρ).length + (us.toFinset \ s.repositories.keys).card ∧
    (∀ k, k ∉ us →
      (s.AddRepositories us).repositories.lookup k = s.repositories.lookup k) ∧
    (s.Coherent → ∀ u, u ∈ ((s.AddRepositories us).GetRepositoriesAsSlice ρ).map SatisRepository.URL
      ↔ u ∈ (s.GetRepositoriesAsSlice ρ).map SatisRepository.URL ∨ u ∈ us) := by
  have hkeys := Satis.keys_AddRepositories s us
  have hsub : s.repositories.keys ⊆ (s.AddRepositories us).repositories.keys := by
    rw [hkeys]
    exact Finset.subset_union_left
  have hcard : (s.AddRepositories us).repositories.keys.card
      = s.repositories.keys.card + (us.toFinset \ s.repositories.keys).card := by
    rw [hkeys, ← Finset.union_sdiff_self_eq_union,
      Finset.card_union_of_disjoint Finset.disjoint_sdiff]
  refine ⟨hkeys, hsub, Finset.card_le_card hsub, hcard, ?_, ?_, ?_⟩
  · rw [Satis.GetRepositoriesAsSlice_eq, Satis.GetRepositoriesAsSlice_eq, List.length_map,
      List.length_map, ρ.length_order, ρ.length_order, hcard]
  · intro k hk
    rw [Satis.lookup_AddRepositories, if_neg hk]
  · intro h u
    have hkey : ∀ t : Satis, t.Coherent →
        (u ∈ (t.GetRepositoriesAsSlice ρ).map SatisRepository.URL ↔ u ∈ t.repositories.keys) := by
      intro t ht
      rw [ht.map_URL ρ, ρ.keys_eq t.repositories, List.mem_toFinset]
    rw [hkey _ (h.AddRepositories us), hkey s h, hkeys, Finset.mem_union, List.mem_toFinset]

/-- C16 on the registry of the sample manifest: of `u1`, `u3`, `u3` only `u3`
is new, and the entry of `u2` stays. -/
theorem AddRepositories_URL_set_witness :
    (sampleSatis.AddRepositories [ "u1", "u3", "u3" ]).repositories.keys.card
      = sampleSatis.repositories.keys.card + 1 ∧
    "u2" ∉ [ "u1", "u3", "u3" ] ∧
    (sampleSatis.AddRepositories [ "u1", "u3", "u3" ]).repositories.lookup "u2"
      = sampleSatis.repositories.lookup "u2" ∧
    sampleSatis.Coherent ∧
    ("u3" ∈ ((sampleSatis.AddRepositories [ "u1", "u3", "u3" ]).GetRepositoriesAsSlice
        RangeOrder.ascending).map SatisRepository.URL
      ↔ "u3" ∈ (sampleSatis.GetRepositoriesAsSlice RangeOrder.ascending).map SatisRepository.URL
        ∨ "u3" ∈ [ "u1", "u3", "u3" ]) :=
  ⟨(AddRepositories_URL_set RangeOrder.ascending sampleSatis [ "u1", "u3", "u3" ]).2.2.2.1.trans
      (by decide),
    by decide,
    (AddRepositories_URL_set RangeOrder.ascending sampleSatis [ "u1", "u3", "u3" ]).2.2.2.2.2.1
      "u2" (by decide),
    sampleSatis_coherent,
    (AddRepositories_URL_set RangeOrder.ascending sampleSatis [ "u1", "u3", "u3" ]).2.2.2.2.2.2
      sampleSatis_coherent "u3"⟩

/-! ### Order and multiplicity of the arguments -/

theorem Satis.config_AddRepositories (s : Satis) (us : List String) :
    (s.AddRepositories us).config = s.config :=
  Satis.config_foldl_AddRepository us s

theorem Satis.AddRepositories_congr (s : Satis) {xs ys : List String}
    (h : ∀ u, u ∈ xs ↔ u ∈ ys) : s.AddRepositories xs = s.AddRepositories ys := by
  refine Satis.ext_lookup ?_ ?_
  · rw [Satis.config_AddRepositories, Satis.config_AddRepositories]
  intro k
  rw [Satis.lookup_AddRepositories, Satis.lookup_AddRepositories]
  by_cases hk : k ∈ xs
  · rw [if_pos hk, if_pos ((h k).1 hk)]
  · rw [if_neg hk, if_neg (fun hy => hk ((h k).2 hy))]

/-- C17. `AddRepositories` does not depend on the order or on the multiplicity
of its arguments: two sequences with the same set of elements give equal Satis
objects, so do a sequence and a permutation of it, and a sequence and the
sequence without its duplicates; and `AddRepository(a)` and `AddRepository(b)`
commute. -/
theorem AddRepositories_order_irrelevant (s : Satis) (xs ys : List String) (a b : String) :
    ((∀ u, u ∈ xs ↔ u ∈ ys) → s.AddRepositories xs = s.AddRepositories ys) ∧
    (xs.Perm ys → s.AddRepositories xs = s.AddRepositories ys) ∧
    s.AddRepositories xs.dedup = s.AddRepositories xs ∧
    s.AddRepositories xs.reverse = s.AddRepositories xs ∧
    s.AddRepositories (xs ++ ys) = s.AddRepositories (ys ++ xs) ∧
    (s.AddRepository a).AddRepository b = (s.AddRepository b).AddRepository a := by
  refine ⟨Satis.AddRepositories_congr s, fun h => Satis.AddRepositories_congr s (fun u => h.mem_iff),
    Satis.AddRepositories_congr s (fun u => List.mem_dedup),
    Satis.AddRepositories_congr s (fun u => List.mem_reverse), ?_, ?_⟩
  · apply Satis.AddRepositories_congr
    intro u
    rw [List.mem_append, List.mem_append, or_comm]
  · have hmem : ∀ u, u ∈ [a, b] ↔ u ∈ [b, a] := by
      intro u
      simp only [List.mem_cons, List.not_mem_nil, or_false]
      exact or_comm
    exact Satis.AddRepositories_congr s hmem

/-- C17 on the registry of the sample manifest. -/
theorem AddRepositories_order_irrelevant_witness :
    (∀ u, u ∈ [ "u3", "u1", "u3" ] ↔ u ∈ [ "u1", "u3" ]) ∧
    sampleSatis.AddRepositories [ "u3", "u1", "u3" ] = sampleSatis.AddRepositories [ "u1", "u3" ] ∧
    [ "u3", "u1" ].Perm [ "u1", "u3" ] ∧
    sampleSatis.AddRepositories [ "u3", "u1" ] = sampleSatis.AddRepositories [ "u1", "u3" ] := by
  have hmem : ∀ u, u ∈ [ "u3", "u1", "u3" ] ↔ u ∈ [ "u1", "u3" ] := by
    intro u
    simp only [List.mem_cons, List.mem_singleton, List.not_mem_nil, or_false]
    constructor
    · rintro (h | h | h)
      · exact Or.inr h
      · exact Or.inl h
      · exact Or.inr h
    · rintro (h | h)
      · exact Or.inr (Or.inl h)
      · exact Or.inl h
  have hperm : [ "u3", "u1" ].Perm [ "u1", "u3" ] := List.Perm.swap _ _ _
  exact ⟨hmem,
    (AddRepositories_order_irrelevant sampleSatis [ "u3", "u1", "u3" ] [ "u1", "u3" ] "" "").1 hmem,
    hperm,
    (AddRepositories_order_irrelevant sampleSatis [ "u3", "u1" ] [ "u1", "u3" ] "" "").2.1 hperm⟩

/-! ### The repositories value that is written -/

/-- What `WriteFile` does once the document `m` is built: it encodes `m`, and
writes the bytes or returns the error of the encoding. -/
theorem Satis.WriteFile_of_document {ρ₁ ρ₂ : RangeOrder} {s : Satis} {m : GoMap Bytes}
    (write : WriteFileOp) (filename : String) (perm : Nat) (fs : FileSystem)
    (h : Satis.WriteFile.document ρ₁ ρ₂ s = Except.ok (Except.ok m)) :
    s.WriteFile write ρ₁ ρ₂ filename perm fs =
      match json.MarshalIndentDocument m with
      | .error err => (Except.ok (some err), fs)
      | .ok b => (Except.ok (write filename b perm fs).1, (write filename b perm fs).2) := by
  rw [Satis.WriteFile_eq, Satis.WriteFile.encode_of_document h]
  cases json.MarshalIndentDocument m <;> rfl

/-- The document of a raw-valued content map: the provider's raw values, and
under `"repositories"` the encoding of the slice. -/
theorem Satis.WriteFile.document_spec (ρ₁ ρ₂ : RangeOrder) (s : Satis)
    (hraw : ∀ k v, s.config.GetContentMap.lookup k = some v → v.isRawMessage = true) :
    ∃ m, Satis.WriteFile.document ρ₁ ρ₂ s = Except.ok (Except.ok m) ∧
      m.lookup "repositories" = some (Bytes.text 0
        (Json.array ((s.GetRepositoriesAsSlice ρ₂).map SatisRepository.toJson))) ∧
      ∀ k, k ≠ "repositories" →
        (m.lookup k).map GoValue.rawMessage = s.config.GetContentMap.lookup k := by
  obtain ⟨m, _, hlook, hdoc⟩ := Satis.WriteFile.document_of_raw ρ₁ ρ₂ s hraw
  refine ⟨_, hdoc, Finmap.lookup_insert _, fun k hk => ?_⟩
  rw [Finmap.lookup_insert_of_ne _ hk]
  exact hlook k

/-- The bytes of a document whose values other than `"repositories"` are
encodable: every member is the value of the raw message of the document. -/
theorem Satis.WriteFile.written_spec {s : Satis} {m : GoMap Bytes} {l : List SatisRepository}
    (hrep : m.lookup "repositories" = some (Bytes.text 0
      (Json.array (l.map SatisRepository.toJson))))
    (hlook : ∀ k, k ≠ "repositories" →
      (m.lookup k).map GoValue.rawMessage = s.config.GetContentMap.lookup k)
    (henc : ∀ k v, k ≠ "repositories" → s.config.GetContentMap.lookup k = some v →
      v.encodes = true) :
    ∃ b, json.MarshalIndentDocument m = Except.ok b ∧
      b.member "repositories" = some (Json.array (l.map SatisRepository.toJson)) ∧
      (∀ k, b.member k = (m.lookup k).map Bytes.jsonValue) ∧
      ∀ k raw, k ≠ "repositories" →
        s.config.GetContentMap.lookup k = some (GoValue.rawMessage raw) →
        b.member k = some raw.jsonValue := by
  have hwell : ∀ k b, m.lookup k = some b → b.isMalformed = false := by
    intro k b hkb
    by_cases hk : k = "repositories"
    · subst hk
      rw [hrep] at hkb
      cases hkb
      rfl
    · have h₁ := hlook k hk
      rw [hkb] at h₁
      obtain ⟨b', hb', hmal⟩ := (GoValue.encodes_iff _).1 (henc k _ hk h₁.symm)
      cases hb'
      exact hmal
  refine ⟨_, json.MarshalIndentDocument_ok m hwell, ?_, member_MarshalIndentDocument m, ?_⟩
  · rw [member_MarshalIndentDocument, hrep]
    rfl
  · intro k raw hk hraw
    rw [member_MarshalIndentDocument]
    have h₁ := hlook k hk
    rw [hraw] at h₁
    cases hm : Finmap.lookup k m with
    | none => rw [hm] at h₁; cases h₁
    | some b =>
      rw [hm] at h₁
      cases h₁
      rfl

/-- C2, as amended. The value `WriteFile` stores under `"repositories"`, and
writes, is the JSON array of `GetRepositoriesAsSlice()`, one object with the
members `"type"` and `"url"` per entry, in the order in which the loop visits
the registry, whatever the provider held under that key. For the same registry,
two providers with raw content maps that agree outside `"repositories"` give
documents with the same other members and with the same repository entries up
to their order, and the same written document when the registry is visited in
the same order. And from a provider without a `"repositories"` value,
`AddRepository("https://example.com/a.git")` and `WriteFile` write a document
whose `"repositories"` value decodes to the one entry of type `"git"` with that
URL. -/
theorem WriteFile_regenerates_repositories :
    (∀ (write : WriteFileOp) (ρ₁ ρ₁' ρ₂ ρ₂' : RangeOrder) (c c' : Provider)
        (registry : GoMap SatisRepository) (filename : String) (perm : Nat) (fs : FileSystem),
      (∀ k v, c.GetContentMap.lookup k = some v → v.isRawMessage = true) →
      (∀ k v, c'.GetContentMap.lookup k = some v → v.isRawMessage = true) →
      c.GetContentMap.erase "repositories" = c'.GetContentMap.erase "repositories" →
      ∃ m m',
        Satis.WriteFile.document ρ₁ ρ₂ { config := c, repositories := registry }
          = Except.ok (Except.ok m) ∧
        Satis.WriteFile.document ρ₁' ρ₂' { config := c', repositories := registry }
          = Except.ok (Except.ok m') ∧
        m.lookup "repositories" = some (Bytes.text 0 (Json.array
          ((Satis.GetRepositoriesAsSlice ρ₂ { config := c, repositories := registry }).map
            (fun r => Json.object [("type", Json.string r.«Type»), ("url", Json.string r.URL)])))) ∧
        m'.lookup "repositories" = some (Bytes.text 0 (Json.array
          ((Satis.GetRepositoriesAsSlice ρ₂' { config := c', repositories := registry }).map
            (fun r => Json.object [("type", Json.string r.«Type»), ("url", Json.string r.URL)])))) ∧
        (∀ k, k ≠ "repositories" → m.lookup k = m'.lookup k) ∧
        (Satis.GetRepositoriesAsSlice ρ₂ { config := c, repositories := registry }).Perm
          (Satis.GetRepositoriesAsSlice ρ₂' { config := c', repositories := registry }) ∧
        Satis.WriteFile.encode ρ₁ ρ₂ { config := c, repositories := registry }
          = Except.ok (json.MarshalIndentDocument m) ∧
        Satis.WriteFile write ρ₁ ρ₂ { config := c, repositories := registry } filename perm fs
          = (match json.MarshalIndentDocument m with
             | .error err => (Except.ok (some err), fs)
             | .ok b => (Except.ok (write filename b perm fs).1, (write filename b perm fs).2)) ∧
        (Satis.GetRepositoriesAsSlice ρ₂ { config := c, repositories := registry }
            = Satis.GetRepositoriesAsSlice ρ₂' { config := c', repositories := registry } →
          m = m' ∧
          Satis.WriteFile write ρ₁ ρ₂ { config := c, repositories := registry } filename perm fs
            = Satis.WriteFile write ρ₁' ρ₂' { config := c', repositories := registry }
                filename perm fs) ∧
        ((∀ k v, k ≠ "repositories" → c.GetContentMap.lookup k = some v → v.encodes = true) →
          ∃ b b', json.MarshalIndentDocument m = Except.ok b ∧
            json.MarshalIndentDocument m' = Except.ok b' ∧
            Satis.WriteFile write ρ₁ ρ₂ { config := c, repositories := registry } filename perm fs
              = (Except.ok (write filename b perm fs).1, (write filename b perm fs).2) ∧
            Satis.WriteFile write ρ₁' ρ₂' { config := c', repositories := registry }
                filename perm fs
              = (Except.ok (write filename b' perm fs).1, (write filename b' perm fs).2) ∧
            b.member "repositories" = some (Json.array
              ((Satis.GetRepositoriesAsSlice ρ₂ { config := c, repositories := registry }).map
                (fun r =>
                  Json.object [("type", Json.string r.«Type»), ("url", Json.string r.URL)]))) ∧
            b'.member "repositories" = some (Json.array
              ((Satis.GetRepositoriesAsSlice ρ₂' { config := c', repositories := registry }).map
                (fun r =>
                  Json.object [("type", Json.string r.«Type»), ("url", Json.string r.URL)]))) ∧
            (∀ k, k ≠ "repositories" → b.member k = b'.member k) ∧
            (∀ k raw, k ≠ "repositories" →
              c.GetContentMap.lookup k = some (GoValue.rawMessage raw) →
              b.member k = some raw.jsonValue))) ∧
    (∀ (write : WriteFileOp) (ρ₁ ρ₂ : RangeOrder) (c : Provider) (filename : String) (perm : Nat)
        (fs : FileSystem),
      c.Get "repositories" = GoValue.rawMessagePtr none →
      (∀ k v, c.GetContentMap.lookup k = some v → v.encodes = true) →
      ∃ s b, NewSatis (some c) = Except.ok (some s, none) ∧
        s.GetRepositoriesAsSlice ρ₂ = [] ∧
        Satis.WriteFile.encode ρ₁ ρ₂ (s.AddRepository "https://example.com/a.git")
          = Except.ok (Except.ok b) ∧
        (s.AddRepository "https://example.com/a.git").WriteFile write ρ₁ ρ₂ filename perm fs
          = (Except.ok (write filename b perm fs).1, (write filename b perm fs).2) ∧
        b.member "repositories" = some (Json.array [Json.object
          [("type", Json.string "git"), ("url", Json.string "https://example.com/a.git")]]) ∧
        (b.member "repositories").map decodeRepositories
          = some (Except.ok [⟨"git", "https://example.com/a.git"⟩])) := by
  constructor
  · intro write ρ₁ ρ₁' ρ₂ ρ₂' c c' registry filename perm fs hraw hraw' hsame
    obtain ⟨m, hdoc, hrep, hlook⟩ := Satis.WriteFile.document_spec ρ₁ ρ₂
      { config := c, repositories := registry } hraw
    obtain ⟨m', hdoc', hrep', hlook'⟩ := Satis.WriteFile.document_spec ρ₁' ρ₂'
      { config := c', repositories := registry } hraw'
    have hcm : ∀ k, k ≠ "repositories" →
        Finmap.lookup k c.GetContentMap = Finmap.lookup k c'.GetContentMap := fun k hk =>
      ((Finmap.lookup_erase_ne hk).symm.trans (congrArg (Finmap.lookup k) hsame)).trans
        (Finmap.lookup_erase_ne hk)
    have hother : ∀ k, k ≠ "repositories" → m.lookup k = m'.lookup k := by
      intro k hk
      have h₁ := hlook k hk
      have h₂ := hlook' k hk
      rw [← hcm k hk, ← h₁] at h₂
      cases hm : Finmap.lookup k m <;> cases hm' : Finmap.lookup k m' <;>
        simp [hm, hm'] at h₂ ⊢
      exact h₂.symm
    have hsameDoc : Satis.GetRepositoriesAsSlice ρ₂ { config := c, repositories := registry }
        = Satis.GetRepositoriesAsSlice ρ₂' { config := c', repositories := registry } →
        m = m' := by
      intro hslice
      apply Finmap.ext_lookup
      intro k
      by_cases hk : k = "repositories"
      · rw [hk, hrep, hrep', hslice]
      · exact hother k hk
    refine ⟨m, m', hdoc, hdoc', hrep, hrep', hother,
      Satis.GetRepositoriesAsSlice_perm ρ₂ ρ₂' { config := c, repositories := registry },
      Satis.WriteFile.encode_of_document hdoc,
      Satis.WriteFile_of_document write filename perm fs hdoc, ?_, ?_⟩
    · intro hslice
      refine ⟨hsameDoc hslice, ?_⟩
      rw [Satis.WriteFile_of_document write filename perm fs hdoc,
        Satis.WriteFile_of_document write filename perm fs hdoc', hsameDoc hslice]
    · intro henc
      have henc' : ∀ k v, k ≠ "repositories" → c'.GetContentMap.lookup k = some v →
          v.encodes = true := by
        intro k v hk hkv
        rw [← hcm k hk] at hkv
        exact henc k v hk hkv
      obtain ⟨b, hb, hbrep, hbmem, hbraw⟩ := Satis.WriteFile.written_spec
        (s := { config := c, repositories := registry }) hrep hlook henc
      obtain ⟨b', hb', hbrep', hbmem', _⟩ := Satis.WriteFile.written_spec
        (s := { config := c', repositories := registry }) hrep' hlook' henc'
      refine ⟨b, b', hb, hb', ?_, ?_, hbrep, hbrep', ?_, hbraw⟩
      · rw [Satis.WriteFile_of_document write filename perm fs hdoc, hb]
      · rw [Satis.WriteFile_of_document write filename perm fs hdoc', hb']
      · intro k hk
        rw [hbmem k, hbmem' k, hother k hk]
  · intro write ρ₁ ρ₂ c filename perm fs habsent henc
    have hraw : ∀ k v, c.GetContentMap.lookup k = some v → v.isRawMessage = true := by
      intro k v hkv
      obtain ⟨b, rfl, _⟩ := (GoValue.encodes_iff v).1 (henc k v hkv)
      rfl
    obtain ⟨m, hdoc, hrep, hlook⟩ := Satis.WriteFile.document_spec ρ₁ ρ₂
      (Satis.AddRepository { config := c, repositories := ∅ } "https://example.com/a.git") hraw
    have hslice : Satis.GetRepositoriesAsSlice ρ₂
        (Satis.AddRepository { config := c, repositories := ∅ } "https://example.com/a.git")
        = [⟨"git", "https://example.com/a.git"⟩] := by
      rw [Satis.GetRepositoriesAsSlice_eq]
      unfold Satis.AddRepository
      rw [RangeOrder.order_singleton]
      rfl
    rw [hslice] at hrep
    obtain ⟨b, hb, hbrep, _, _⟩ := Satis.WriteFile.written_spec
      (s := Satis.AddRepository { config := c, repositories := ∅ } "https://example.com/a.git")
      hrep hlook (fun k v _ hkv => henc k v hkv)
    refine ⟨_, b, NewSatis_of_absent c habsent, ?_, ?_, ?_, hbrep, ?_⟩
    · rw [Satis.GetRepositoriesAsSlice_eq, RangeOrder.order_empty]
      rfl
    · rw [Satis.WriteFile.encode_of_document hdoc, hb]
    · rw [Satis.WriteFile_of_document write filename perm fs hdoc, hb]
    · rw [hbrep]
      exact congrArg some (mapM_decode_toJson [⟨"git", "https://example.com/a.git"⟩])

/-- Every value of the manifest without repositories is an encodable raw
message. -/
theorem bareDocument_content_encodes :
    ∀ k v, (Provider.ofDocument bareDocument).GetContentMap.lookup k = some v →
      v.encodes = true :=
  GoMap.forall_lookup_of_sortedEntries _ (fun _ (v : GoValue) => v.encodes = true) (by decide)

/-- C2 as amended, on the sample manifest and the manifest without
repositories: with different orders of the loops, with the same order, and the
example of the first repository. -/
theorem WriteFile_regenerates_repositories_witness :
    ((Provider.ofDocument sampleDocument).GetContentMap.erase "repositories"
        = (Provider.ofDocument bareDocument).GetContentMap.erase "repositories" ∧
      ∃ m m' b b', Satis.WriteFile.document RangeOrder.ascending RangeOrder.ascending
            { config := Provider.ofDocument sampleDocument,
              repositories := sampleSatis.repositories } = Except.ok (Except.ok m) ∧
        Satis.WriteFile.document RangeOrder.descending RangeOrder.descending
            { config := Provider.ofDocument bareDocument,
              repositories := sampleSatis.repositories } = Except.ok (Except.ok m') ∧
        (∀ k, k ≠ "repositories" → m.lookup k = m'.lookup k) ∧
        json.MarshalIndentDocument m = Except.ok b ∧
        json.MarshalIndentDocument m' = Except.ok b' ∧
        Satis.WriteFile successfulWrite RangeOrder.ascending RangeOrder.ascending
            { config := Provider.ofDocument sampleDocument,
              repositories := sampleSatis.repositories } "satis.json" 420 noFiles
          = (Except.ok (successfulWrite "satis.json" b 420 noFiles).1,
              (successfulWrite "satis.json" b 420 noFiles).2) ∧
        (∀ k, k ≠ "repositories" → b.member k = b'.member k)) ∧
    (Satis.GetRepositoriesAsSlice RangeOrder.ascending
        { config := Provider.ofDocument sampleDocument, repositories := sampleSatis.repositories }
      = Satis.GetRepositoriesAsSlice RangeOrder.ascending
        { config := Provider.ofDocument bareDocument, repositories := sampleSatis.repositories } ∧
      Satis.WriteFile successfulWrite RangeOrder.ascending RangeOrder.ascending
          { config := Provider.ofDocument sampleDocument,
            repositories := sampleSatis.repositories } "satis.json" 420 noFiles
        = Satis.WriteFile successfulWrite RangeOrder.descending RangeOrder.ascending
          { config := Provider.ofDocument bareDocument,
            repositories := sampleSatis.repositories } "satis.json" 420 noFiles) ∧
    ((Provider.ofDocument bareDocument).Get "repositories" = GoValue.rawMessagePtr none ∧
      ∃ s b, NewSatis (some (Provider.ofDocument bareDocument)) = Except.ok (some s, none) ∧
        s.GetRepositoriesAsSlice RangeOrder.descending = [] ∧
        Satis.WriteFile.encode RangeOrder.ascending RangeOrder.descending
            (s.AddRepository "https://example.com/a.git") = Except.ok (Except.ok b) ∧
        (s.AddRepository "https://example.com/a.git").WriteFile successfulWrite
            RangeOrder.ascending RangeOrder.descending "satis.json" 420 noFiles
          = (Except.ok (successfulWrite "satis.json" b 420 noFiles).1,
              (successfulWrite "satis.json" b 420 noFiles).2) ∧
        b.member "repositories" = some (Json.array [Json.object
          [("type", Json.string "git"), ("url", Json.string "https://example.com/a.git")]]) ∧
        (b.member "repositories").map decodeRepositories
          = some (Except.ok [⟨"git", "https://example.com/a.git"⟩])) := by
  refine ⟨⟨by decide, ?_⟩, ⟨rfl, ?_⟩, rfl, ?_⟩
  · obtain ⟨m, m', h₁, h₂, _, _, h₅, _, _, _, _, h₁₀⟩ := WriteFile_regenerates_repositories.1
      successfulWrite RangeOrder.ascending RangeOrder.descending RangeOrder.ascending
      RangeOrder.descending (Provider.ofDocument sampleDocument)
      (Provider.ofDocument bareDocument) sampleSatis.repositories "satis.json" 420 noFiles
      sampleSatis_content_raw bareDocument_content_raw (by decide)
    obtain ⟨b, b', hb, hb', hw, _, _, _, hmem, _⟩ :=
      h₁₀ (fun k v _ hkv => sampleDocument_content_encodes k v hkv)
    exact ⟨m, m', b, b', h₁, h₂, h₅, hb, hb', hw, hmem⟩
  · obtain ⟨m, m', _, _, _, _, _, _, _, _, h₉, _⟩ := WriteFile_regenerates_repositories.1
      successfulWrite RangeOrder.ascending RangeOrder.descending RangeOrder.ascending
      RangeOrder.ascending (Provider.ofDocument sampleDocument)
      (Provider.ofDocument bareDocument) sampleSatis.repositories "satis.json" 420 noFiles
      sampleSatis_content_raw bareDocument_content_raw (by decide)
    exact (h₉ rfl).2
  · exact WriteFile_regenerates_repositories.2 successfulWrite RangeOrder.ascending
      RangeOrder.descending (Provider.ofDocument bareDocument) "satis.json" 420 noFiles rfl
      bareDocument_content_encodes

/-- C2, the claim as stated fails: the sample manifest and the manifest without
repositories have content maps that differ only in `"repositories"`, and for
the same registry of two entries `WriteFile` writes different documents when
the loop of `GetRepositoriesAsSlice` visits the registry in different orders. -/
theorem WriteFile_written_document_depends_on_order :
    (Provider.ofDocument sampleDocument).GetContentMap.erase "repositories"
      = (Provider.ofDocument bareDocument).GetContentMap.erase "repositories" ∧
    Satis.GetRepositoriesAsSlice RangeOrder.ascending
        { config := Provider.ofDocument sampleDocument, repositories := sampleSatis.repositories }
      = [⟨"hg", "u1"⟩, ⟨"git", "u2"⟩] ∧
    Satis.GetRepositoriesAsSlice RangeOrder.descending
        { config := Provider.ofDocument bareDocument, repositories := sampleSatis.repositories }
      = [⟨"git", "u2"⟩, ⟨"hg", "u1"⟩] ∧
    Satis.WriteFile.encode RangeOrder.ascending RangeOrder.ascending
        { config := Provider.ofDocument sampleDocument, repositories := sampleSatis.repositories }
      ≠ Satis.WriteFile.encode RangeOrder.ascending RangeOrder.descending
        { config := Provider.ofDocument bareDocument, repositories := sampleSatis.repositories } ∧
    (Satis.WriteFile successfulWrite RangeOrder.ascending RangeOrder.ascending
        { config := Provider.ofDocument sampleDocument, repositories := sampleSatis.repositories }
        "satis.json" 420 noFiles).2 "satis.json"
      ≠ (Satis.WriteFile successfulWrite RangeOrder.ascending RangeOrder.descending
        { config := Provider.ofDocument bareDocument, repositories := sampleSatis.repositories }
        "satis.json" 420 noFiles).2 "satis.json" := by
  refine ⟨by decide, by decide, by decide, by decide, by decide⟩

end Perseus
